import Mathlib

/-!
Verification model of the polyhedral Scop builder (Polly's `ScopInfo.cpp`
together with the fact-extraction pass `TempScopInfo.cpp`).

The isl objects used by the source are embedded structurally:

* an `AffE` is an `isl_aff`: integer coefficients on the input dimensions,
  coefficients on (id-keyed) parameter dimensions, a constant, and a positive
  denominator, denoting the rational affine function `num / den`;
* a `PwAff` is an `isl_pw_aff`: a list of pieces, each an affine expression
  guarded by a conjunction of affine conditions, together with the parameter
  ids of its space;
* an `ISet` / `IMap` is an `isl_set` / `isl_map`: a union of basic sets, each
  a conjunction of affine constraints, together with the parameter ids of its
  space.  Because parameter coefficients are keyed directly by parameter id
  (isl keys them by position and carries the ids on the space), aligning
  parameters only changes the recorded space, never the constraints.

Scalar-evolution expressions are embedded as the inductive `SCEV`; operand
lists are a mutually inductive list type so that all recursions stay
structural and evaluate inside the kernel.
-/

namespace ScopModel

/-- Identifier of an isl parameter dimension.  `table i` stands for the
`isl_id` produced by `Scop::getIdForParam` for the parameter registered at
table index `i`; `value v` stands for the id allocated directly by
`SCEVAffinator::visitUnknown` from an (unregistered) value `v`. -/
inductive PId where
  | table (i : Nat)
  | value (v : Nat)
  deriving Repr, DecidableEq

mutual
/-- Scalar-evolution expressions (the shapes handled by `SCEVAffinator`). -/
inductive SCEV where
  | constant (c : Int)
  | add (ops : SCEVList)
  | mul (ops : SCEVList)
  | smax (ops : SCEVList)
  | umax (ops : SCEVList)
  | sext (op : SCEV)
  | zext (op : SCEV)
  | trunc (op : SCEV)
  | udiv (a b : SCEV)
  | addrec (start step : SCEV) (loop : Nat)
  | unknown (u : Nat)
  deriving Repr, DecidableEq
/-- Operand lists of n-ary scalar-evolution expressions. -/
inductive SCEVList where
  | nil
  | cons (head : SCEV) (tail : SCEVList)
  deriving Repr, DecidableEq
end

/-- The table `Scop::ParameterIds`, associating a parameter expression with
its assigned dimension index (insertion order, starting at 0). -/
abbrev Table := List (SCEV × Nat)

/-- Lookup in `ParameterIds` (structural identity of the expression, as the
uniqued `SCEV*` pointers give in the source). -/
def lookupParam (T : Table) (e : SCEV) : Option Nat :=
  (T.find? (fun kv => decide (kv.1 = e))).map (fun kv => kv.2)

/-- `Scop::addParams`: parameters already on record are skipped, a new
parameter receives the next free dimension index (`Parameters.size()`). -/
def addParams (T : Table) (ps : List SCEV) : Table :=
  ps.foldl (fun t p => if (lookupParam t p).isSome then t else t ++ [(p, t.length)]) T

/-- Truncating dot product of a coefficient list against a point. -/
def dot : List Int → List Int → Int
  | [], _ => 0
  | _, [] => 0
  | a :: as, b :: bs => a * b + dot as bs

/-- Sum of parameter contributions under a parameter valuation. -/
def psum (l : List (PId × Int)) (ρ : PId → Int) : Int :=
  (l.map (fun q => q.2 * ρ q.1)).sum

/-- Add one parameter coefficient into a normalized coefficient list,
cancelling entries that become zero. -/
def paddOne : List (PId × Int) → PId → Int → List (PId × Int)
  | [], p, c => if c = 0 then [] else [(p, c)]
  | (q, d) :: t, p, c =>
      if q = p then (if d + c = 0 then t else (q, d + c) :: t)
      else (q, d) :: paddOne t p c

/-- Merge two parameter coefficient lists. -/
def pplus (l m : List (PId × Int)) : List (PId × Int) :=
  m.foldl (fun acc q => paddOne acc q.1 q.2) l

/-- Scale a parameter coefficient list by a constant. -/
def pscale (c : Int) (l : List (PId × Int)) : List (PId × Int) :=
  if c = 0 then [] else l.map (fun q => (q.1, c * q.2))

/-- An `isl_aff` over some input dimensions: the value at a point `x` with
parameter valuation `ρ` is `(dot inCoeff x + psum par ρ + cst) / den`, with
`den` positive throughout this development. -/
structure AffE where
  inCoeff : List Int
  par : List (PId × Int)
  cst : Int
  den : Int
  deriving Repr, DecidableEq

/-- Numerator of an affine expression at a point. -/
def AffE.evalNum (a : AffE) (x : List Int) (ρ : PId → Int) : Int :=
  dot a.inCoeff x + psum a.par ρ + a.cst

/-- The zero `isl_aff` over `n` input dimensions
(`isl_aff_zero_on_domain`). -/
def zeroAffOn (n : Nat) : AffE :=
  ⟨List.replicate n 0, [], 0, 1⟩

/-- Pointwise sum of same-length-domain affine expressions, brought to the
common denominator (`isl_aff_add`). -/
def zipPad : List Int → List Int → List Int
  | [], bs => bs
  | as, [] => as
  | a :: as, b :: bs => (a + b) :: zipPad as bs

/-- Multiply an affine expression by the constant rational `c / d`. -/
def scaleAff (c d : Int) (x : AffE) : AffE :=
  ⟨x.inCoeff.map (fun k => c * k), pscale c x.par, c * x.cst, x.den * d⟩

/-- Sum of two affine expressions over the common denominator. -/
def affAdd (a b : AffE) : AffE :=
  ⟨zipPad (a.inCoeff.map (fun k => k * b.den)) (b.inCoeff.map (fun k => k * a.den)),
   pplus (pscale b.den a.par) (pscale a.den b.par),
   a.cst * b.den + b.cst * a.den,
   a.den * b.den⟩

/-- Difference `a - b` of two affine expressions. -/
def affSub (a b : AffE) : AffE :=
  affAdd a (scaleAff (-1) 1 b)

/-- Decrement the constant of the numerator by one (used to encode a strict
inequality over the integers). -/
def decCst (a : AffE) : AffE :=
  { a with cst := a.cst - 1 }

/-- `isl_aff_is_cst`: no input or parameter dimension carries a nonzero
coefficient. -/
def isCstA (a : AffE) : Bool :=
  a.inCoeff.all (fun k => k == 0) && a.par.isEmpty

/-- `isl_aff_mul`: defined when one operand is constant, an isl error (hence
`none`, the run aborts) otherwise. -/
def affMul (a b : AffE) : Option AffE :=
  if isCstA a then some (scaleAff a.cst a.den b)
  else if isCstA b then some (scaleAff b.cst b.den a)
  else none

/-- Kind of an affine constraint: `num ≥ 0` or `num = 0`. -/
inductive CKind where
  | ge0
  | eq0
  deriving Repr, DecidableEq

/-- An affine constraint.  With a positive denominator, `a ≥ 0` and `a = 0`
hold exactly when the numerator does. -/
structure Cond where
  k : CKind
  a : AffE
  deriving Repr, DecidableEq

/-- Whether a constraint holds at a point under a parameter valuation. -/
def Cond.holds (c : Cond) (v : List Int) (ρ : PId → Int) : Bool :=
  match c.k with
  | .ge0 => decide (0 ≤ c.a.evalNum v ρ)
  | .eq0 => decide (c.a.evalNum v ρ = 0)

/-- One piece of an `isl_pw_aff`: an affine value on a conjunctively
constrained domain. -/
structure Piece where
  dom : List Cond
  aff : AffE
  deriving Repr, DecidableEq

/-- An `isl_pw_aff` together with the parameter ids of its space. -/
structure PwAff where
  params : List PId
  nbIn : Nat
  pieces : List Piece
  deriving Repr, DecidableEq

/-- Parameter alignment of spaces: the model's parameters first, then the
remaining ones in their original order (`isl_space_align_params`). -/
def punion (a b : List PId) : List PId :=
  a ++ b.filter (fun p => decide (p ∉ a))

/-- `SCEVAffinator::visitConstant`: a constant piecewise-affine expression on
a universe domain. -/
def constPwAff (n : Nat) (c : Int) : PwAff :=
  ⟨[], n, [⟨[], { zeroAffOn n with cst := c }⟩]⟩

/-- A pure parameter expression with coefficient one on parameter `id`
(the registered-parameter case of `visit`, and `visitUnknown`). -/
def paramPwAff (n : Nat) (id : PId) : PwAff :=
  ⟨[id], n, [⟨[], { zeroAffOn n with par := [(id, 1)] }⟩]⟩

/-- Unit coefficient on input dimension `i`
(`isl_aff_set_coefficient_si(zero, isl_dim_in, i, 1)`). -/
def unitPwAff (n i : Nat) : PwAff :=
  ⟨[], n, [⟨[], { zeroAffOn n with inCoeff := (List.replicate n 0).set i 1 }⟩]⟩

/-- `isl_pw_aff_add`: pieces combine pairwise, parameters align. -/
def pwAdd (f g : PwAff) : PwAff :=
  ⟨punion f.params g.params, f.nbIn,
   f.pieces.flatMap (fun p => g.pieces.map (fun q => ⟨p.dom ++ q.dom, affAdd p.aff q.aff⟩))⟩

/-- `isl_pw_aff_is_cst`: every piece is constant. -/
def isCstPw (f : PwAff) : Bool :=
  f.pieces.all (fun p => isCstA p.aff)

/-- Collect a list of optional values, failing if any entry failed. -/
def allSome : List (Option α) → Option (List α)
  | [] => some []
  | none :: _ => none
  | some a :: t => (allSome t).map (fun l => a :: l)

/-- `isl_pw_aff_mul`: pieces combine pairwise by `isl_aff_mul`; any pair of
non-constant affine expressions is an isl error. -/
def pwMul (f g : PwAff) : Option PwAff :=
  (allSome (f.pieces.flatMap (fun p => g.pieces.map (fun q =>
    (affMul p.aff q.aff).map (fun a => (⟨p.dom ++ q.dom, a⟩ : Piece)))))).map
  (fun ps => ⟨punion f.params g.params, f.nbIn, ps⟩)

/-- `isl_pw_aff_max`: each pair of pieces splits into the region where the
first value is at least the second and the strict complement. -/
def pwMax (f g : PwAff) : PwAff :=
  ⟨punion f.params g.params, f.nbIn,
   f.pieces.flatMap (fun p => g.pieces.flatMap (fun q =>
     [⟨p.dom ++ q.dom ++ [⟨.ge0, affSub p.aff q.aff⟩], p.aff⟩,
      ⟨p.dom ++ q.dom ++ [⟨.ge0, decCst (affSub q.aff p.aff)⟩], q.aff⟩]))⟩

/-- An `isl_set` (union of basic sets) with the parameter ids of its space. -/
structure ISet where
  params : List PId
  nbIn : Nat
  bsets : List (List Cond)
  deriving Repr, DecidableEq

/-- Membership of an integer point in a set, given a parameter valuation. -/
def ISet.memB (s : ISet) (x : List Int) (ρ : PId → Int) : Bool :=
  x.length == s.nbIn && s.bsets.any (fun b => b.all (fun c => c.holds x ρ))

/-- `isl_set_universe`. -/
def setUniverse (ps : List PId) (n : Nat) : ISet :=
  ⟨ps, n, [[]]⟩

/-- `isl_set_intersect` (parameters align automatically). -/
def ISet.inter (s t : ISet) : ISet :=
  ⟨punion s.params t.params, s.nbIn,
   s.bsets.flatMap (fun b => t.bsets.map (fun c => b ++ c))⟩

/-- `isl_set_align_params`. -/
def ISet.alignParams (s : ISet) (model : List PId) : ISet :=
  { s with params := punion model s.params }

/-- `isl_pw_aff_nonneg_set`. -/
def pwNonnegSet (f : PwAff) : ISet :=
  ⟨f.params, f.nbIn, f.pieces.map (fun p => p.dom ++ [⟨.ge0, p.aff⟩])⟩

/-- Generic comparison set of two piecewise-affine expressions: one or two
basic sets per pair of pieces. -/
def pwPairSet (mk : AffE → AffE → List (List Cond)) (f g : PwAff) : ISet :=
  ⟨punion f.params g.params, f.nbIn,
   f.pieces.flatMap (fun p => g.pieces.flatMap (fun q =>
     (mk p.aff q.aff).map (fun extra => p.dom ++ q.dom ++ extra)))⟩

/-- `isl_pw_aff_le_set`. -/
def pwLeSet : PwAff → PwAff → ISet :=
  pwPairSet (fun a b => [[⟨.ge0, affSub b a⟩]])

/-- `isl_pw_aff_lt_set` (strict, over the integers). -/
def pwLtSet : PwAff → PwAff → ISet :=
  pwPairSet (fun a b => [[⟨.ge0, decCst (affSub b a)⟩]])

/-- `isl_pw_aff_ge_set`. -/
def pwGeSet (f g : PwAff) : ISet :=
  pwLeSet g f

/-- `isl_pw_aff_gt_set`. -/
def pwGtSet (f g : PwAff) : ISet :=
  pwLtSet g f

/-- `isl_pw_aff_eq_set`. -/
def pwEqSet : PwAff → PwAff → ISet :=
  pwPairSet (fun a b => [[⟨.eq0, affSub b a⟩]])

/-- `isl_pw_aff_ne_set` (union of the two strict comparisons). -/
def pwNeSet : PwAff → PwAff → ISet :=
  pwPairSet (fun a b => [[⟨.ge0, decCst (affSub b a)⟩], [⟨.ge0, decCst (affSub a b)⟩]])

/-- An `isl_map` (union of basic maps) with the parameter ids of its space.
Constraint coefficient lists range over the input dimensions followed by the
output dimensions. -/
structure IMap where
  params : List PId
  nIn : Nat
  nOut : Nat
  bsets : List (List Cond)
  deriving Repr, DecidableEq

/-- Membership of a pair of integer points in a map. -/
def IMap.memB (m : IMap) (x y : List Int) (ρ : PId → Int) : Bool :=
  x.length == m.nIn && y.length == m.nOut &&
    m.bsets.any (fun b => b.all (fun c => c.holds (x ++ y) ρ))

/-- `isl_map_universe` (also `isl_basic_map_universe`). -/
def mapUniverse (ps : List PId) (nIn nOut : Nat) : IMap :=
  ⟨ps, nIn, nOut, [[]]⟩

/-- Add one constraint to every basic map of a map. -/
def IMap.addCon (m : IMap) (c : Cond) : IMap :=
  { m with bsets := m.bsets.map (fun b => c :: b) }

/-- `isl_map_equate` of output dimension `j` with input dimension `i`. -/
def mapEquate (m : IMap) (j i : Nat) : IMap :=
  m.addCon ⟨.eq0,
    { zeroAffOn (m.nIn + m.nOut) with
      inCoeff := ((List.replicate (m.nIn + m.nOut) 0).set i 1).set (m.nIn + j) (-1) }⟩

/-- `isl_map_fix_si` of output dimension `j` to the value `v`. -/
def mapFixOut (m : IMap) (j : Nat) (v : Int) : IMap :=
  m.addCon ⟨.eq0,
    { zeroAffOn (m.nIn + m.nOut) with
      inCoeff := (List.replicate (m.nIn + m.nOut) 0).set (m.nIn + j) (-1),
      cst := v }⟩

/-- `isl_map_align_params`. -/
def IMap.alignParams (m : IMap) (model : List PId) : IMap :=
  { m with params := punion model m.params }

/-- Pad a coefficient list with zeros up to length `n`. -/
def padTo (n : Nat) (l : List Int) : List Int :=
  l ++ List.replicate (n - l.length) 0

/-- `isl_map_from_pw_aff`: the graph of the function; a piece whose affine
value has denominator `d` contributes the constraint `d·out − num(x) = 0`. -/
def mapFromPwAff (f : PwAff) : IMap :=
  ⟨f.params, f.nbIn, 1,
   f.pieces.map (fun p =>
     p.dom ++ [⟨.eq0,
       ⟨padTo f.nbIn (p.aff.inCoeff.map (fun c => -c)) ++ [p.aff.den],
        pscale (-1) p.aff.par, -p.aff.cst, 1⟩⟩])⟩

/-- `isl_pw_aff_scale_down`: multiplies each piece's denominator. -/
def pwScaleDown (f : PwAff) (v : Int) : PwAff :=
  { f with pieces := f.pieces.map (fun p => { p with aff := { p.aff with den := p.aff.den * v } }) }

/-- Fold a combining step over the remaining operands, propagating failure
(the `for` loops of `visitAddExpr` / `visitMulExpr` / `visitSMaxExpr`). -/
def foldCombine (f : PwAff → PwAff → Option PwAff) : PwAff → List PwAff → Option PwAff
  | acc, [] => some acc
  | acc, v :: vs =>
    match f acc v with
    | none => none
    | some acc2 => foldCombine f acc2 vs

/-- Combine the translations of an operand list.  A failed operand
translation is a NULL `isl_pw_aff`; feeding it to the next isl operation
aborts the run (the isl context is configured with `ISL_ON_ERROR_ABORT`),
hence `none` overall. -/
def mergeOps (f : PwAff → PwAff → Option PwAff) (vs : List (Option PwAff)) : Option PwAff :=
  match allSome vs with
  | none => none
  | some [] => none
  | some (v :: rest) => foldCombine f v rest

/-- Combining step of `visitAddExpr`. -/
def addStep (a b : PwAff) : Option PwAff :=
  some (pwAdd a b)

/-- Combining step of `visitMulExpr`: if neither the running product nor the
next operand is constant the translation returns NULL. -/
def mulStep (a b : PwAff) : Option PwAff :=
  if !isCstPw a && !isCstPw b then none else pwMul a b

/-- Combining step of `visitSMaxExpr`. -/
def maxStep (a b : PwAff) : Option PwAff :=
  some (pwMax a b)

mutual
/-- Dispatch of `SCEVAffinator::visit` on the node kind, reached when the
expression is not a registered parameter.  Truncation, zero-extension,
unsigned division and unsigned max assert in the source (`none` here); a
product of two non-constant operands returns NULL (`none` as well — with
`ISL_ON_ERROR_ABORT` both are fatal).  The translator context is the
statement's: `n` iteration dimensions (`NbLoopSpaces`) and the relative loop
depth map `ld` (`getLoopDepth`).  Every recursive visit first checks the
parameter table, as the source's `visit` override does. -/
def visitRaw (T : Table) (n : Nat) (ld : Nat → Nat) : SCEV → Option PwAff
  | .constant c => some (constPwAff n c)
  | .add ops => mergeOps addStep (visitL T n ld ops)
  | .mul ops => mergeOps mulStep (visitL T n ld ops)
  | .smax ops => mergeOps maxStep (visitL T n ld ops)
  | .umax _ => none
  | .sext op =>
    match lookupParam T op with
    | some i => some (paramPwAff n (.table i))
    | none => visitRaw T n ld op
  | .zext _ => none
  | .trunc _ => none
  | .udiv _ _ => none
  | .addrec st sp lp =>
    match (match lookupParam T st with
           | some i => some (paramPwAff n (.table i))
           | none => visitRaw T n ld st),
          (match lookupParam T sp with
           | some i => some (paramPwAff n (.table i))
           | none => visitRaw T n ld sp) with
    | some s, some p =>
      match pwMul p (unitPwAff n (ld lp)) with
      | some q => some (pwAdd s q)
      | none => none
    | _, _ => none
  | .unknown u => some (paramPwAff n (.value u))
/-- Translations of an operand list, in operand order. -/
def visitL (T : Table) (n : Nat) (ld : Nat → Nat) : SCEVList → List (Option PwAff)
  | .nil => []
  | .cons h t =>
    (match lookupParam T h with
     | some i => some (paramPwAff n (.table i))
     | none => visitRaw T n ld h) :: visitL T n ld t
end

/-- `SCEVAffinator::visit`: an expression registered as a parameter becomes a
pure parameter term with coefficient one; otherwise the node kind is
dispatched by `visitRaw`. -/
def visit (T : Table) (n : Nat) (ld : Nat → Nat) (e : SCEV) : Option PwAff :=
  match lookupParam T e with
  | some i => some (paramPwAff n (.table i))
  | none => visitRaw T n ld e

mutual
/-- Modelled from the spec: `getParamsInAffineExpr` (`SCEVValidator`, not
among the sources) reports the parameters appearing in an affine expression —
the irreducible sub-expressions (unknown values) that must be treated as
opaque parameters of the region. -/
def paramsInAffineExpr : SCEV → List SCEV
  | .constant _ => []
  | .add ops => paramsInL ops
  | .mul ops => paramsInL ops
  | .smax ops => paramsInL ops
  | .umax ops => paramsInL ops
  | .sext a => paramsInAffineExpr a
  | .zext a => paramsInAffineExpr a
  | .trunc a => paramsInAffineExpr a
  | .udiv a b => paramsInAffineExpr a ++ paramsInAffineExpr b
  | .addrec s p _ => paramsInAffineExpr s ++ paramsInAffineExpr p
  | .unknown u => [.unknown u]
/-- Parameters of an operand list. -/
def paramsInL : SCEVList → List SCEV
  | .nil => []
  | .cons h t => paramsInAffineExpr h ++ paramsInL t
end

/-- `SCEVAffinator::getPwAff`: register the parameters of the expression in
the owning Scop's table, then translate the expression. -/
def getPwAff (T : Table) (n : Nat) (ld : Nat → Nat) (e : SCEV) : Table × Option PwAff :=
  let T2 := addParams T (paramsInAffineExpr e)
  (T2, visit T2 n ld e)

/-- Integer comparison predicates of `ICmpInst`. -/
inductive Pred where
  | eq
  | ne
  | slt
  | sle
  | sgt
  | sge
  | ult
  | ule
  | ugt
  | uge
  deriving Repr, DecidableEq

/-- The `Comparison` fact recorded by the extraction pass: two
scalar-evolution operands and a predicate. -/
structure Cmp where
  lhs : SCEV
  rhs : SCEV
  pred : Pred
  deriving Repr, DecidableEq

/-- `ScopStmt::buildConditionSet`: translate both operands, then build the
comparison set.  The four unsigned predicates are `llvm_unreachable` in the
source — a hard failure, `none` here. -/
def buildConditionSet (T : Table) (n : Nat) (ld : Nat → Nat) (c : Cmp) :
    Table × Option ISet :=
  let r1 := getPwAff T n ld c.lhs
  let r2 := getPwAff r1.1 n ld c.rhs
  (r2.1,
    match r1.2, r2.2 with
    | some l, some r =>
      match c.pred with
      | .eq => some (pwEqSet l r)
      | .ne => some (pwNeSet l r)
      | .slt => some (pwLtSet l r)
      | .sle => some (pwLeSet l r)
      | .sgt => some (pwGtSet l r)
      | .sge => some (pwGeSet l r)
      | _ => none
    | _, _ => none)

/-- `ScopStmt::addLoopBoundsToDomain`, one loop level at a time: intersect
with `0 ≤ iv_i`, translate the loop's backedge-taken count, intersect with
`iv_i ≤ bound`.  A failed translation is fatal (`none`). -/
def addLoopBoundsAux (n : Nat) (ld : Nat → Nat) (bounds : List SCEV) :
    List Nat → Table → ISet → Table × Option ISet
  | [], T, dom => (T, some dom)
  | i :: is, T, dom =>
    match getPwAff T n ld (bounds.getD i (.constant 0)) with
    | (T1, none) => (T1, none)
    | (T1, some ub) =>
      addLoopBoundsAux n ld bounds is T1
        ((dom.inter (pwNonnegSet (unitPwAff n i))).inter (pwLeSet (unitPwAff n i) ub))

/-- `ScopStmt::addLoopBoundsToDomain` over all loop levels, outermost to
innermost. -/
def addLoopBoundsToDomain (T : Table) (n : Nat) (ld : Nat → Nat)
    (bounds : List SCEV) (dom : ISet) : Table × Option ISet :=
  addLoopBoundsAux n ld bounds (List.range n) T dom

/-- `ScopStmt::addConditionsToDomain`: intersect the domain with the
condition set of every comparison fact reaching the block. -/
def addConditionsToDomain (n : Nat) (ld : Nat → Nat) :
    List Cmp → Table → ISet → Table × Option ISet
  | [], T, dom => (T, some dom)
  | c :: cs, T, dom =>
    match buildConditionSet T n ld c with
    | (T1, none) => (T1, none)
    | (T1, some s) => addConditionsToDomain n ld cs T1 (dom.inter s)

/-- `ScopStmt::buildDomain`: universe over the iteration vector, then loop
bounds, then branch conditions. -/
def buildDomain (T : Table) (n : Nat) (ld : Nat → Nat)
    (bounds : List SCEV) (conds : List Cmp) : Table × Option ISet :=
  match addLoopBoundsToDomain T n ld bounds (setUniverse [] n) with
  | (T1, none) => (T1, none)
  | (T1, some dom) => addConditionsToDomain n ld conds T1 dom

/-- `ScopStmt::buildScattering`: a map from the `nbIter`-dimensional
iteration vector to `2·MaxLoopDepth+1` scattering dimensions; odd output
dimensions copy the iterators, even ones up to `2·nbIter` are fixed to the
lexical-position counters in `scatter`, the remaining ones are fixed to
zero; finally the parameters are aligned to the parent's current parameter
space. -/
def buildScattering (maxLoopDepth : Nat) (ctxParams : List PId)
    (scatter : List Int) (nbIter : Nat) : IMap :=
  let nbScat := 2 * maxLoopDepth + 1
  let m0 := mapUniverse [] nbIter nbScat
  let m1 := (List.range nbIter).foldl (fun m i => mapEquate m (2 * i + 1) i) m0
  let m2 := (List.range (nbIter + 1)).foldl
    (fun m i => mapFixOut m (2 * i) (scatter.getD i 0)) m1
  let m3 := (List.range' (2 * nbIter + 1) (nbScat - (2 * nbIter + 1))).foldl
    (fun m i => mapFixOut m i 0) m2
  m3.alignParams ctxParams

/-- Access direction of a `MemoryAccess`. -/
inductive AccType where
  | read
  | write
  | mayWrite
  deriving Repr, DecidableEq

/-- One `IRAccess` fact produced by `TempScopInfo::buildIRAccess`: direction,
base-address identity, offset expression (access function minus base
pointer), element size in bytes, and the affine flag computed by the
validator. -/
structure IRAccess where
  isRead : Bool
  baseId : Nat
  offset : SCEV
  elemSize : Int
  isAffine : Bool
  deriving Repr, DecidableEq

/-- A built `MemoryAccess`: direction, base identity and access relation. -/
structure MemAcc where
  accType : AccType
  baseId : Nat
  rel : IMap
  deriving Repr, DecidableEq

/-- `MemoryAccess::createBasicAccessMap`: the universal relation from the
statement's iteration space to a one-dimensional space named after the base
address. -/
def createBasicAccessMap (nbIter : Nat) : IMap :=
  mapUniverse [] nbIter 1

/-- The `MemoryAccess` constructor from an `IRAccess` fact.  A non-affine
access degrades to the universal relation and a write becomes a may-write; an
affine access translates its offset, divides by the element size and takes
the graph of the result. -/
def mkMemoryAccess (T : Table) (nbIter : Nat) (ld : Nat → Nat) (acc : IRAccess) :
    Table × Option MemAcc :=
  let ty : AccType := if acc.isRead then .read else .write
  if !acc.isAffine then
    (T, some ⟨if ty = .read then .read else .mayWrite, acc.baseId,
              createBasicAccessMap nbIter⟩)
  else
    let r := getPwAff T nbIter ld acc.offset
    match r.2 with
    | none => (r.1, none)
    | some f => (r.1, some ⟨ty, acc.baseId, mapFromPwAff (pwScaleDown f acc.elemSize)⟩)

/-- `ScopStmt::buildAccesses`: one `MemoryAccess` per recorded fact, in
order. -/
def buildAccesses (nbIter : Nat) (ld : Nat → Nat) :
    List IRAccess → Table → Table × Option (List MemAcc)
  | [], T => (T, some [])
  | a :: as, T =>
    match mkMemoryAccess T nbIter ld a with
    | (T1, none) => (T1, none)
    | (T1, some m) =>
      match buildAccesses nbIter ld as T1 with
      | (T2, none) => (T2, none)
      | (T2, some ms) => (T2, some (m :: ms))

/-- The per-block facts consumed by the `ScopStmt` constructor: the enclosing
loops (outermost first), the lexical-position counters at construction time,
the backedge-taken counts of the enclosing loops, the comparison facts
reaching the block, and the access facts of the block. -/
structure StmtFacts where
  nestLoops : List Nat
  scatter : List Int
  bounds : List SCEV
  conds : List Cmp
  accesses : List IRAccess
  deriving Repr

/-- A built statement: domain, scattering and access relations. -/
structure StmtModel where
  domain : ISet
  scattering : IMap
  accesses : List MemAcc
  deriving Repr

/-- The `ScopStmt` constructor: build the domain, the scattering relation and
the access relations, threading the parent's parameter table. -/
def buildStmt (maxLoopDepth : Nat) (ctxParams : List PId) (T : Table)
    (f : StmtFacts) : Table × Option StmtModel :=
  match buildDomain T f.nestLoops.length (fun lp => f.nestLoops.indexOf lp)
      f.bounds f.conds with
  | (T1, none) => (T1, none)
  | (T1, some dom) =>
    match buildAccesses f.nestLoops.length (fun lp => f.nestLoops.indexOf lp)
        f.accesses T1 with
    | (T2, none) => (T2, none)
    | (T2, some accs) =>
      (T2, some ⟨dom, buildScattering maxLoopDepth ctxParams f.scatter f.nestLoops.length,
                 accs⟩)

/-- `Scop::buildScop`, with the region-tree walk abstracted to the sequence
of `ScopStmt` constructor calls it performs (one per non-trivial block, in
depth-first execution order, each with the loop nest and scattering counters
current at that point). -/
def buildStmts (maxLoopDepth : Nat) (ctxParams : List PId) :
    List StmtFacts → Table → Option (Table × List StmtModel)
  | [], T => some (T, [])
  | f :: fs, T =>
    match buildStmt maxLoopDepth ctxParams T f with
    | (T2, some st) =>
      match buildStmts maxLoopDepth ctxParams fs T2 with
      | some (T3, sts) => some (T3, st :: sts)
      | none => none
    | (_, none) => none

/-- A built Scop: the parameter table, the context set and the statements. -/
structure ScopM where
  tab : Table
  context : ISet
  stmts : List StmtModel
  deriving Repr

/-- The parameter space assembled by `Scop::realignParams`: an
`n`-dimensional parameter space whose dimension `i` carries the id of the
parameter registered at index `i` (the loop sets each dimension
`ParameterIds[P]` to `getIdForParam(P)`; the indices assigned by `addParams`
are exactly `0, …, n−1`). -/
def paramSpaceOf (T : Table) : List PId :=
  (List.range T.length).map PId.table

/-- `MemoryAccess::realignParams`, `ScopStmt::realignParams`: align every
relation of the statement to the parent's parameter space. -/
def StmtModel.realign (sp : List PId) (st : StmtModel) : StmtModel :=
  ⟨st.domain.alignParams sp, st.scattering.alignParams sp,
   st.accesses.map (fun a => { a with rel := a.rel.alignParams sp })⟩

/-- `Scop::realignParams`: build the global parameter space, align the
context to it, then align every statement to the context's space. -/
def ScopM.realignParams (S : ScopM) : ScopM :=
  let sp := paramSpaceOf S.tab
  let ctx := S.context.alignParams sp
  { S with context := ctx, stmts := S.stmts.map (StmtModel.realign ctx.params) }

/-- The `Scop` constructor: build the (parameter-free) universe context, walk
the region building all statements, then realign all parameters. -/
def buildScop (maxLoopDepth : Nat) (facts : List StmtFacts) : Option ScopM :=
  let ctx := setUniverse [] 0
  match buildStmts maxLoopDepth ctx.params facts [] with
  | none => none
  | some (T, sts) => some (ScopM.realignParams ⟨T, ctx, sts⟩)

/-- The condition value of a conditional branch: either an `ICmpInst` (with
the scalar evolutions of its operands at scope) or a constant. -/
inductive BrCond where
  | icmp (lhs rhs : SCEV) (pred : Pred)
  | cint (isOne : Bool)
  deriving Repr, DecidableEq

/-- Terminator of a basic block: an unconditional branch or a conditional
branch with its condition, true successor and false successor. -/
inductive Term where
  | uncond
  | br (c : BrCond) (succTrue succFalse : Nat)
  deriving Repr, DecidableEq

/-- `ICmpInst::getInversePredicate`. -/
def invPred : Pred → Pred
  | .eq => .ne
  | .ne => .eq
  | .slt => .sge
  | .sge => .slt
  | .sle => .sgt
  | .sgt => .sle
  | .ult => .uge
  | .uge => .ult
  | .ule => .ugt
  | .ugt => .ule

/-- `TempScopInfo::buildAffineCondition`: a constant condition records the
trivially true comparison `0 ≤ 1` when `isOne == inverted` and the trivially
false `0 ≥ 1` otherwise; a comparison instruction records its operands with
the predicate inverted exactly when `inverted` is set. -/
def buildAffineCondition (v : BrCond) (inverted : Bool) : Cmp :=
  match v with
  | .cint isOne =>
    if isOne == inverted then ⟨.constant 0, .constant 1, .sle⟩
    else ⟨.constant 0, .constant 1, .sge⟩
  | .icmp l r p => ⟨l, r, if inverted then invPred p else p⟩

/-- The control-flow context of `TempScopInfo::buildCondition`: immediate
dominators, dominance, post-dominance and block terminators. -/
structure CFG where
  idom : Nat → Nat
  domB : Nat → Nat → Bool
  pdomB : Nat → Nat → Bool
  termOf : Nat → Term

/-- `TempScopInfo::buildCondition`: walk up the dominator tree from `cur` to
`entry`; at each step the condition of the immediate dominator's branch is
recorded (inverted when the false successor dominates `bb`) unless the
current node post-dominates it or the branch is unconditional.  The walk is
fuel-bounded; `none` means `entry` was not reached within the fuel. -/
def buildCondition (G : CFG) (bb entry : Nat) : Nat → Nat → Option (List Cmp)
  | 0, cur => if cur = entry then some [] else none
  | fuel + 1, cur =>
    if cur = entry then some []
    else
      match buildCondition G bb entry fuel (G.idom cur) with
      | none => none
      | some rest =>
        some ((if G.pdomB cur (G.idom cur) then []
               else
                 match G.termOf (G.idom cur) with
                 | .uncond => []
                 | .br c _ sf => [buildAffineCondition c (G.domB sf bb)]) ++ rest)

/-- The chain of immediate dominators from `cur` up to `entry` (inclusive),
fuel-bounded. -/
def idomChain (G : CFG) (entry : Nat) : Nat → Nat → Option (List Nat)
  | 0, cur => if cur = entry then some [cur] else none
  | fuel + 1, cur =>
    if cur = entry then some [cur]
    else
      match idomChain G entry fuel (G.idom cur) with
      | none => none
      | some l => some (cur :: l)

/-- The comparisons contributed by one dominator-tree edge `(cur, parent)`
for block `bb`: skipped when `cur` post-dominates `parent` or `parent` ends
in an unconditional branch, one comparison otherwise. -/
def edgeConds (G : CFG) (bb : Nat) (cur parent : Nat) : List Cmp :=
  if G.pdomB cur parent then []
  else
    match G.termOf parent with
    | .uncond => []
    | .br c _ sf => [buildAffineCondition c (G.domB sf bb)]

/-! ### Semantics of the embedded isl operations -/

theorem dot_nil_left (v : List Int) : dot [] v = 0 := by
  cases v <;> rfl

theorem dot_nil_right (l : List Int) : dot l [] = 0 := by
  cases l <;> rfl

theorem dot_cons (a : Int) (l : List Int) (b : Int) (v : List Int) :
    dot (a :: l) (b :: v) = a * b + dot l v := rfl

theorem dot_replicate_zero (n : Nat) (v : List Int) :
    dot (List.replicate n 0) v = 0 := by
  induction n generalizing v with
  | zero => simp [dot_nil_left]
  | succ k ih =>
    cases v with
    | nil => simp [dot_nil_right]
    | cons b w => simp [List.replicate_succ, dot_cons, ih]

theorem dot_set (l v : List Int) (i : Nat) (a : Int) :
    dot (l.set i a) v =
      dot l v + (if i < l.length ∧ i < v.length then (a - l.getD i 0) * v.getD i 0 else 0) := by
  induction l generalizing v i with
  | nil => simp [dot_nil_left]
  | cons hl tl ih =>
    cases v with
    | nil => simp [dot_nil_right]
    | cons hv tv =>
      cases i with
      | zero => simp [dot_cons, List.getD]; ring
      | succ k =>
        simp only [List.set_cons_succ, dot_cons, ih tv k,
          List.length_cons, List.getD_cons_succ]
        have : k + 1 < tl.length + 1 ↔ k < tl.length := by omega
        have h2 : k + 1 < tv.length + 1 ↔ k < tv.length := by omega
        simp only [List.length_cons, Nat.succ_lt_succ_iff]
        ring

theorem dot_zipPad (a b v : List Int) :
    dot (zipPad a b) v = dot a v + dot b v := by
  induction a generalizing b v with
  | nil => simp [zipPad, dot_nil_left]
  | cons ha ta ih =>
    cases b with
    | nil => simp [zipPad, dot_nil_left]
    | cons hb tb =>
      cases v with
      | nil => simp [dot_nil_right]
      | cons hv tv => simp [zipPad, dot_cons, ih]; ring

theorem dot_map_mul_left (c : Int) (l v : List Int) :
    dot (l.map (fun k => c * k)) v = c * dot l v := by
  induction l generalizing v with
  | nil => simp [dot_nil_left]
  | cons h t ih =>
    cases v with
    | nil => simp [dot_nil_right]
    | cons hv tv => simp [dot_cons, ih]; ring

theorem dot_map_mul_right (c : Int) (l v : List Int) :
    dot (l.map (fun k => k * c)) v = c * dot l v := by
  have : (fun k => k * c) = (fun k => c * k) := by funext k; ring
  rw [this, dot_map_mul_left]

theorem dot_map_neg (l v : List Int) :
    dot (l.map (fun k => -k)) v = -dot l v := by
  have : (fun k : Int => -k) = (fun k => (-1) * k) := by funext k; ring
  rw [this, dot_map_mul_left]; ring

theorem dot_append_of_length_le (c x y : List Int) (h : c.length ≤ x.length) :
    dot c (x ++ y) = dot c x := by
  induction c generalizing x with
  | nil => simp [dot_nil_left]
  | cons hc tc ih =>
    cases x with
    | nil => simp at h
    | cons hx tx =>
      simp only [List.cons_append, dot_cons]
      rw [ih tx (by simpa using h)]

theorem dot_append_exact (c d x y : List Int) (h : c.length = x.length) :
    dot (c ++ d) (x ++ y) = dot c x + dot d y := by
  induction c generalizing x with
  | nil =>
    cases x with
    | nil => simp [dot_nil_left]
    | cons hx tx => simp at h
  | cons hc tc ih =>
    cases x with
    | nil => simp at h
    | cons hx tx =>
      simp only [List.cons_append, dot_cons, ih tx (by simpa using h)]
      ring

theorem dot_append_replicate_zero (l : List Int) (k : Nat) (v : List Int) :
    dot (l ++ List.replicate k 0) v = dot l v := by
  induction l generalizing v with
  | nil => simp [dot_nil_left, dot_replicate_zero]
  | cons h t ih =>
    cases v with
    | nil => simp [dot_nil_right]
    | cons hv tv => simp [dot_cons, ih]

theorem dot_padTo (n : Nat) (l v : List Int) :
    dot (padTo n l) v = dot l v := by
  rw [padTo, dot_append_replicate_zero]

theorem dot_all_zero (l v : List Int) (h : l.all (fun k => k == 0) = true) :
    dot l v = 0 := by
  induction l generalizing v with
  | nil => simp [dot_nil_left]
  | cons hl tl ih =>
    cases v with
    | nil => simp [dot_nil_right]
    | cons hv tv =>
      simp only [List.all_cons, Bool.and_eq_true, beq_iff_eq] at h
      simp [dot_cons, h.1, ih tv h.2]

theorem psum_nil (ρ : PId → Int) : psum [] ρ = 0 := rfl

theorem psum_cons (q : PId × Int) (l : List (PId × Int)) (ρ : PId → Int) :
    psum (q :: l) ρ = q.2 * ρ q.1 + psum l ρ := by
  simp [psum]

theorem psum_paddOne (l : List (PId × Int)) (p : PId) (c : Int) (ρ : PId → Int) :
    psum (paddOne l p c) ρ = psum l ρ + c * ρ p := by
  induction l with
  | nil =>
    by_cases hc : c = 0 <;> simp [paddOne, hc, psum_nil, psum_cons]
  | cons q t ih =>
    by_cases hq : q.1 = p
    · by_cases hz : q.2 + c = 0
      · have : paddOne (q :: t) p c = t := by
          cases q with
          | mk q1 q2 => simp_all [paddOne]
        rw [this, psum_cons, hq]
        have : q.2 * ρ p = -(c * ρ p) := by
          have : q.2 = -c := by omega
          rw [this]; ring
        rw [this]; ring
      · have : paddOne (q :: t) p c = (q.1, q.2 + c) :: t := by
          cases q with
          | mk q1 q2 => simp_all [paddOne]
        rw [this, psum_cons, psum_cons, hq]
        ring
    · have : paddOne (q :: t) p c = q :: paddOne t p c := by
        cases q with
        | mk q1 q2 => simp_all [paddOne]
      rw [this, psum_cons, psum_cons, ih]
      ring

theorem psum_pplus (l m : List (PId × Int)) (ρ : PId → Int) :
    psum (pplus l m) ρ = psum l ρ + psum m ρ := by
  induction m generalizing l with
  | nil => simp [pplus, psum_nil]
  | cons q t ih =>
    have : pplus l (q :: t) = pplus (paddOne l q.1 q.2) t := rfl
    rw [this, ih, psum_paddOne, psum_cons]
    ring

theorem psum_pscale (c : Int) (l : List (PId × Int)) (ρ : PId → Int) :
    psum (pscale c l) ρ = c * psum l ρ := by
  by_cases hc : c = 0
  · simp [pscale, hc, psum_nil]
  · simp only [pscale, hc, if_false]
    induction l with
    | nil => simp [psum_nil]
    | cons q t ih => simp [psum_cons, ih]; ring

theorem evalNum_affAdd (a b : AffE) (v : List Int) (ρ : PId → Int) :
    (affAdd a b).evalNum v ρ = a.evalNum v ρ * b.den + b.evalNum v ρ * a.den := by
  simp only [affAdd, AffE.evalNum, dot_zipPad, dot_map_mul_right, psum_pplus, psum_pscale]
  ring

theorem evalNum_scaleAff (c d : Int) (x : AffE) (v : List Int) (ρ : PId → Int) :
    (scaleAff c d x).evalNum v ρ = c * x.evalNum v ρ := by
  simp only [scaleAff, AffE.evalNum, dot_map_mul_left, psum_pscale]
  ring

theorem affAdd_den (a b : AffE) : (affAdd a b).den = a.den * b.den := rfl

theorem scaleAff_den (c d : Int) (x : AffE) : (scaleAff c d x).den = x.den * d := rfl

theorem evalNum_affSub (a b : AffE) (v : List Int) (ρ : PId → Int) :
    (affSub a b).evalNum v ρ = a.evalNum v ρ * b.den - b.evalNum v ρ * a.den := by
  simp only [affSub, evalNum_affAdd, evalNum_scaleAff, scaleAff_den]
  ring

theorem affSub_den (a b : AffE) : (affSub a b).den = a.den * b.den := by
  simp [affSub, affAdd_den, scaleAff_den]

theorem evalNum_decCst (a : AffE) (v : List Int) (ρ : PId → Int) :
    (decCst a).evalNum v ρ = a.evalNum v ρ - 1 := by
  simp only [decCst, AffE.evalNum]
  ring

theorem evalNum_zeroAffOn (n : Nat) (v : List Int) (ρ : PId → Int) :
    (zeroAffOn n).evalNum v ρ = 0 := by
  simp [zeroAffOn, AffE.evalNum, dot_replicate_zero, psum_nil]

theorem isCstA_evalNum (a : AffE) (h : isCstA a = true) (v : List Int) (ρ : PId → Int) :
    a.evalNum v ρ = a.cst := by
  simp only [isCstA, Bool.and_eq_true, List.isEmpty_iff] at h
  simp [AffE.evalNum, dot_all_zero _ _ h.1, h.2, psum_nil]

theorem Cond.holds_ge0 (a : AffE) (v : List Int) (ρ : PId → Int) :
    Cond.holds ⟨.ge0, a⟩ v ρ = decide (0 ≤ a.evalNum v ρ) := rfl

theorem Cond.holds_eq0 (a : AffE) (v : List Int) (ρ : PId → Int) :
    Cond.holds ⟨.eq0, a⟩ v ρ = decide (a.evalNum v ρ = 0) := rfl

theorem any_and_left (l : List α) (X : Bool) (f : α → Bool) :
    (l.any (fun b => X && f b)) = (X && l.any f) := by
  cases X <;> simp

/-- Membership is insensitive to parameter alignment: only the recorded
space changes. -/
theorem memB_alignParams (m : IMap) (sp : List PId) (x y : List Int) (ρ : PId → Int) :
    (m.alignParams sp).memB x y ρ = m.memB x y ρ := rfl

theorem memB_setAlignParams (s : ISet) (sp : List PId) (x : List Int) (ρ : PId → Int) :
    (s.alignParams sp).memB x ρ = s.memB x ρ := rfl

theorem addCon_nIn (m : IMap) (c : Cond) : (m.addCon c).nIn = m.nIn := rfl

theorem addCon_nOut (m : IMap) (c : Cond) : (m.addCon c).nOut = m.nOut := rfl

theorem memB_addCon (m : IMap) (c : Cond) (x y : List Int) (ρ : PId → Int) :
    (m.addCon c).memB x y ρ = (m.memB x y ρ && c.holds (x ++ y) ρ) := by
  simp only [IMap.memB, IMap.addCon, List.any_map]
  have : (m.bsets.any fun b => ((fun b => b.all fun c => c.holds (x ++ y) ρ) ∘ fun b => c :: b) b)
      = (m.bsets.any fun b => c.holds (x ++ y) ρ && b.all fun c => c.holds (x ++ y) ρ) := by
    simp [Function.comp]
  rw [this, any_and_left]
  cases hx : (x.length == m.nIn) <;> cases hy : (y.length == m.nOut) <;>
    cases c.holds (x ++ y) ρ <;> simp

/-- The constraint added by `isl_map_equate` of output `j` with input `i`. -/
def equateCond (nIn nOut : Nat) (j i : Nat) : Cond :=
  ⟨.eq0, { zeroAffOn (nIn + nOut) with
           inCoeff := ((List.replicate (nIn + nOut) 0).set i 1).set (nIn + j) (-1) }⟩

/-- The constraint added by `isl_map_fix_si` of output `j` to `v`. -/
def fixOutCond (nIn nOut : Nat) (j : Nat) (v : Int) : Cond :=
  ⟨.eq0, { zeroAffOn (nIn + nOut) with
           inCoeff := (List.replicate (nIn + nOut) 0).set (nIn + j) (-1),
           cst := v }⟩

theorem mapEquate_eq_addCon (m : IMap) (j i : Nat) :
    mapEquate m j i = m.addCon (equateCond m.nIn m.nOut j i) := rfl

theorem mapFixOut_eq_addCon (m : IMap) (j : Nat) (v : Int) :
    mapFixOut m j v = m.addCon (fixOutCond m.nIn m.nOut j v) := rfl

theorem getD_set_ne (l : List α) (i j : Nat) (a d : α) (h : i ≠ j) :
    (l.set i a).getD j d = l.getD j d := by
  rw [List.getD_eq_getElem?_getD, List.getD_eq_getElem?_getD, List.getElem?_set_ne h]

theorem getD_set_self (l : List α) (i : Nat) (a d : α) (h : i < l.length) :
    (l.set i a).getD i d = a := by
  rw [List.getD_eq_getElem?_getD, List.getElem?_set_self h]
  rfl

theorem getD_replicate_self (n : Nat) (c d : α) (j : Nat) (h : j < n) :
    (List.replicate n c).getD j d = c := by
  rw [List.getD_eq_getElem?_getD, List.getElem?_replicate, if_pos h]
  rfl

theorem getD_append_lt (x y : List α) (i : Nat) (d : α) (h : i < x.length) :
    (x ++ y).getD i d = x.getD i d := by
  rw [List.getD_eq_getElem?_getD, List.getD_eq_getElem?_getD, List.getElem?_append_left h]

theorem getD_append_ge (x y : List α) (i : Nat) (d : α) (h : x.length ≤ i) :
    (x ++ y).getD i d = y.getD (i - x.length) d := by
  rw [List.getD_eq_getElem?_getD, List.getD_eq_getElem?_getD, List.getElem?_append_right h]

/-- Semantics of the equate constraint at an in/out point of the right
lengths. -/
theorem equateCond_holds (nIn nOut j i : Nat) (x y : List Int) (ρ : PId → Int)
    (hx : x.length = nIn) (hy : y.length = nOut) (hi : i < nIn) (hj : j < nOut) :
    (equateCond nIn nOut j i).holds (x ++ y) ρ = decide (x.getD i 0 = y.getD j 0) := by
  rw [equateCond, Cond.holds_eq0]
  have hlen : (x ++ y).length = nIn + nOut := by simp [hx, hy]
  have hne : i ≠ nIn + j := by omega
  have e1 : AffE.evalNum
      { zeroAffOn (nIn + nOut) with
        inCoeff := ((List.replicate (nIn + nOut) 0).set i 1).set (nIn + j) (-1) } (x ++ y) ρ
      = x.getD i 0 - y.getD j 0 := by
    simp only [AffE.evalNum, zeroAffOn, psum_nil]
    rw [dot_set, dot_set, dot_replicate_zero]
    have l1 : ((List.replicate (nIn + nOut) (0 : Int)).set i (1 : Int)).length = nIn + nOut := by
      simp
    have l2 : (List.replicate (nIn + nOut) (0 : Int)).length = nIn + nOut := by simp
    have g1 : ((List.replicate (nIn + nOut) (0 : Int)).set i (1 : Int)).getD (nIn + j) 0 = 0 := by
      rw [getD_set_ne _ _ _ _ _ hne, getD_replicate_self _ _ _ _ (by omega)]
    have g2 : (List.replicate (nIn + nOut) (0 : Int)).getD i 0 = 0 :=
      getD_replicate_self _ _ _ _ (by omega)
    have gx : (x ++ y).getD i 0 = x.getD i 0 := getD_append_lt _ _ _ _ (by omega)
    have gy : (x ++ y).getD (nIn + j) 0 = y.getD j 0 := by
      rw [getD_append_ge _ _ _ _ (by omega)]
      congr 1
      omega
    rw [g1, g2, gx, gy]
    simp only [l1, l2, hlen]
    have c1 : i < nIn + nOut := by omega
    have c2 : nIn + j < nIn + nOut := by omega
    simp only [c1, c2, and_true, true_and, if_pos, and_self]
    ring
  rw [e1]
  by_cases h : x.getD i 0 = y.getD j 0 <;> simp [h] <;> omega

/-- Semantics of the fix constraint at an in/out point of the right
lengths. -/
theorem fixOutCond_holds (nIn nOut j : Nat) (v : Int) (x y : List Int) (ρ : PId → Int)
    (hx : x.length = nIn) (hy : y.length = nOut) (hj : j < nOut) :
    (fixOutCond nIn nOut j v).holds (x ++ y) ρ = decide (y.getD j 0 = v) := by
  rw [fixOutCond, Cond.holds_eq0]
  have hlen : (x ++ y).length = nIn + nOut := by simp [hx, hy]
  have e1 : AffE.evalNum
      { zeroAffOn (nIn + nOut) with
        inCoeff := (List.replicate (nIn + nOut) 0).set (nIn + j) (-1), cst := v } (x ++ y) ρ
      = v - y.getD j 0 := by
    simp only [AffE.evalNum, zeroAffOn, psum_nil]
    rw [dot_set, dot_replicate_zero]
    have g2 : (List.replicate (nIn + nOut) (0 : Int)).getD (nIn + j) 0 = 0 :=
      getD_replicate_self _ _ _ _ (by omega)
    have gy : (x ++ y).getD (nIn + j) 0 = y.getD j 0 := by
      rw [getD_append_ge _ _ _ _ (by omega)]
      congr 1
      omega
    rw [g2, gy]
    have c2 : nIn + j < nIn + nOut := by omega
    simp only [List.length_replicate, hlen, c2, and_self, if_pos]
    ring
  rw [e1]
  by_cases h : y.getD j 0 = v <;> simp [h] <;> omega

/-- Characterization of a left fold of constraint additions. -/
theorem memB_foldl_addCon (l : List α) (step : α → Cond) (m : IMap)
    (x y : List Int) (ρ : PId → Int) :
    ((l.foldl (fun m a => m.addCon (step a)) m).memB x y ρ)
      = (m.memB x y ρ && l.all (fun a => (step a).holds (x ++ y) ρ)) := by
  induction l generalizing m with
  | nil => simp
  | cons h t ih =>
    simp only [List.foldl_cons, List.all_cons, ih, memB_addCon]
    cases m.memB x y ρ <;> cases (step h).holds (x ++ y) ρ <;> simp

theorem foldl_addCon_nIn (l : List α) (step : α → Cond) (m : IMap) :
    (l.foldl (fun m a => m.addCon (step a)) m).nIn = m.nIn := by
  induction l generalizing m with
  | nil => rfl
  | cons h t ih => simp [List.foldl_cons, ih, addCon_nIn]

theorem foldl_addCon_nOut (l : List α) (step : α → Cond) (m : IMap) :
    (l.foldl (fun m a => m.addCon (step a)) m).nOut = m.nOut := by
  induction l generalizing m with
  | nil => rfl
  | cons h t ih => simp [List.foldl_cons, ih, addCon_nOut]

theorem memB_mapUniverse (ps : List PId) (nIn nOut : Nat) (x y : List Int) (ρ : PId → Int) :
    (mapUniverse ps nIn nOut).memB x y ρ = (x.length == nIn && y.length == nOut) := by
  simp [mapUniverse, IMap.memB]

theorem any_map_general (l : List α) (f : α → β) (p : β → Bool) :
    (l.map f).any p = l.any (fun a => p (f a)) := by
  induction l with
  | nil => rfl
  | cons h t ih => simp [ih]

theorem any_congr_mem {l : List α} {p q : α → Bool} (h : ∀ a ∈ l, p a = q a) :
    l.any p = l.any q := by
  induction l with
  | nil => rfl
  | cons a t ih =>
    simp only [List.any_cons]
    rw [h a (by simp), ih (fun b hb => h b (by simp [hb]))]

theorem any_and_right (l : List α) (X : Bool) (f : α → Bool) :
    (l.any (fun b => f b && X)) = (l.any f && X) := by
  cases X <;> simp

theorem memB_setUniverse (ps : List PId) (n : Nat) (x : List Int) (ρ : PId → Int) :
    (setUniverse ps n).memB x ρ = (x.length == n) := by
  simp [setUniverse, ISet.memB]

theorem inter_nbIn (s t : ISet) : (s.inter t).nbIn = s.nbIn := rfl

/-- Intersection is conjunction of memberships (for sets over equally many
set dimensions, as all sets intersected by the builder are). -/
theorem memB_inter (s t : ISet) (h : s.nbIn = t.nbIn) (x : List Int) (ρ : PId → Int) :
    (s.inter t).memB x ρ = (s.memB x ρ && t.memB x ρ) := by
  simp only [ISet.inter, ISet.memB, List.any_flatMap, any_map_general]
  rw [← h]
  have inner : ∀ b : List Cond,
      (t.bsets.any fun c => (b ++ c).all fun c => c.holds x ρ)
        = ((b.all fun c => c.holds x ρ) && t.bsets.any fun c => c.all fun c => c.holds x ρ) := by
    intro b
    rw [← any_and_left]
    congr 1
    funext c
    rw [List.all_append]
  have outer : (s.bsets.any fun b => t.bsets.any fun c => (b ++ c).all fun c => c.holds x ρ)
      = ((s.bsets.any fun b => b.all fun c => c.holds x ρ) &&
          t.bsets.any fun c => c.all fun c => c.holds x ρ) := by
    rw [← any_and_right]
    congr 1
    funext b
    exact inner b
  rw [outer]
  cases x.length == s.nbIn <;> simp

/-- Whether a point satisfies the domain constraints of a piece. -/
def satDom (x : List Int) (ρ : PId → Int) (p : Piece) : Bool :=
  p.dom.all (fun c => c.holds x ρ)

theorem memB_pwNonnegSet (f : PwAff) (x : List Int) (ρ : PId → Int) :
    (pwNonnegSet f).memB x ρ
      = (x.length == f.nbIn &&
         f.pieces.any (fun p => satDom x ρ p && decide (0 ≤ p.aff.evalNum x ρ))) := by
  simp only [pwNonnegSet, ISet.memB, any_map_general, satDom]
  congr 1
  apply any_congr_mem
  intro p _
  simp [List.all_append, Cond.holds_ge0]

theorem memB_pwPairSet (mk : AffE → AffE → List (List Cond)) (f g : PwAff)
    (x : List Int) (ρ : PId → Int) :
    (pwPairSet mk f g).memB x ρ
      = (x.length == f.nbIn &&
         f.pieces.any (fun p => g.pieces.any (fun q =>
           (mk p.aff q.aff).any (fun ex =>
             satDom x ρ p && satDom x ρ q && ex.all (fun c => c.holds x ρ))))) := by
  simp only [pwPairSet, ISet.memB, List.any_flatMap, any_map_general, satDom]
  congr 1
  apply any_congr_mem
  intro p _
  apply any_congr_mem
  intro q _
  apply any_congr_mem
  intro ex _
  simp [List.all_append, Bool.and_assoc]

theorem memB_pwLeSet (f g : PwAff) (x : List Int) (ρ : PId → Int) :
    (pwLeSet f g).memB x ρ
      = (x.length == f.nbIn &&
         f.pieces.any (fun p => g.pieces.any (fun q =>
           satDom x ρ p && satDom x ρ q &&
             decide (p.aff.evalNum x ρ * q.aff.den ≤ q.aff.evalNum x ρ * p.aff.den)))) := by
  rw [pwLeSet, memB_pwPairSet]
  congr 1
  apply any_congr_mem
  intro p _
  apply any_congr_mem
  intro q _
  simp only [List.any_cons, List.any_nil, Bool.or_false, List.all_cons, List.all_nil,
    Bool.and_true, Cond.holds_ge0, evalNum_affSub]
  congr 1
  by_cases h : p.aff.evalNum x ρ * q.aff.den ≤ q.aff.evalNum x ρ * p.aff.den <;> simp [h] <;> omega

theorem memB_pwLtSet (f g : PwAff) (x : List Int) (ρ : PId → Int) :
    (pwLtSet f g).memB x ρ
      = (x.length == f.nbIn &&
         f.pieces.any (fun p => g.pieces.any (fun q =>
           satDom x ρ p && satDom x ρ q &&
             decide (p.aff.evalNum x ρ * q.aff.den < q.aff.evalNum x ρ * p.aff.den)))) := by
  rw [pwLtSet, memB_pwPairSet]
  congr 1
  apply any_congr_mem
  intro p _
  apply any_congr_mem
  intro q _
  simp only [List.any_cons, List.any_nil, Bool.or_false, List.all_cons, List.all_nil,
    Bool.and_true, Cond.holds_ge0, evalNum_decCst, evalNum_affSub]
  congr 1
  by_cases h : p.aff.evalNum x ρ * q.aff.den < q.aff.evalNum x ρ * p.aff.den <;> simp [h] <;> omega

theorem memB_pwEqSet (f g : PwAff) (x : List Int) (ρ : PId → Int) :
    (pwEqSet f g).memB x ρ
      = (x.length == f.nbIn &&
         f.pieces.any (fun p => g.pieces.any (fun q =>
           satDom x ρ p && satDom x ρ q &&
             decide (p.aff.evalNum x ρ * q.aff.den = q.aff.evalNum x ρ * p.aff.den)))) := by
  rw [pwEqSet, memB_pwPairSet]
  congr 1
  apply any_congr_mem
  intro p _
  apply any_congr_mem
  intro q _
  simp only [List.any_cons, List.any_nil, Bool.or_false, List.all_cons, List.all_nil,
    Bool.and_true, Cond.holds_eq0, evalNum_affSub]
  congr 1
  by_cases h : p.aff.evalNum x ρ * q.aff.den = q.aff.evalNum x ρ * p.aff.den <;> simp [h] <;> omega

theorem memB_pwNeSet (f g : PwAff) (x : List Int) (ρ : PId → Int) :
    (pwNeSet f g).memB x ρ
      = (x.length == f.nbIn &&
         f.pieces.any (fun p => g.pieces.any (fun q =>
           satDom x ρ p && satDom x ρ q &&
             decide (p.aff.evalNum x ρ * q.aff.den ≠ q.aff.evalNum x ρ * p.aff.den)))) := by
  rw [pwNeSet, memB_pwPairSet]
  congr 1
  apply any_congr_mem
  intro p _
  apply any_congr_mem
  intro q _
  simp only [List.any_cons, List.any_nil, Bool.or_false, List.all_cons, List.all_nil,
    Bool.and_true, Cond.holds_ge0, evalNum_decCst, evalNum_affSub]
  cases hp : satDom x ρ p <;> cases hq : satDom x ρ q <;> simp
  by_cases h : p.aff.evalNum x ρ * q.aff.den = q.aff.evalNum x ρ * p.aff.den
  · simp [h]
  · have h3 : (0 ≤ q.aff.evalNum x ρ * p.aff.den - p.aff.evalNum x ρ * q.aff.den - 1)
        ∨ (0 ≤ p.aff.evalNum x ρ * q.aff.den - q.aff.evalNum x ρ * p.aff.den - 1) := by
      omega
    rcases h3 with h3 | h3 <;> simp [h, h3] <;> omega


/-! ### Scattering characterization (claim C1) -/

theorem foldl_mapEquate_eq (l : List Nat) (jf kf : Nat → Nat) (m : IMap) :
    l.foldl (fun m i => mapEquate m (jf i) (kf i)) m
      = l.foldl (fun acc i => acc.addCon (equateCond m.nIn m.nOut (jf i) (kf i))) m := by
  induction l generalizing m with
  | nil => rfl
  | cons h t ih =>
    rw [List.foldl_cons, List.foldl_cons, mapEquate_eq_addCon, ih]
    simp only [addCon_nIn, addCon_nOut]

theorem foldl_mapFixOut_eq (l : List Nat) (jf : Nat → Nat) (vf : Nat → Int) (m : IMap) :
    l.foldl (fun m i => mapFixOut m (jf i) (vf i)) m
      = l.foldl (fun acc i => acc.addCon (fixOutCond m.nIn m.nOut (jf i) (vf i))) m := by
  induction l generalizing m with
  | nil => rfl
  | cons h t ih =>
    rw [List.foldl_cons, List.foldl_cons, mapFixOut_eq_addCon, ih]
    simp only [addCon_nIn, addCon_nOut]

theorem buildScattering_nIn (mld : Nat) (ctxp : List PId) (scatter : List Int) (nbIter : Nat) :
    (buildScattering mld ctxp scatter nbIter).nIn = nbIter := by
  rw [buildScattering, foldl_mapEquate_eq, foldl_mapFixOut_eq, foldl_mapFixOut_eq]
  simp [IMap.alignParams, foldl_addCon_nIn, mapUniverse]

theorem buildScattering_nOut (mld : Nat) (ctxp : List PId) (scatter : List Int) (nbIter : Nat) :
    (buildScattering mld ctxp scatter nbIter).nOut = 2 * mld + 1 := by
  rw [buildScattering, foldl_mapEquate_eq, foldl_mapFixOut_eq, foldl_mapFixOut_eq]
  simp [IMap.alignParams, foldl_addCon_nOut, mapUniverse]

theorem buildScattering_memB (mld : Nat) (ctxp : List PId) (scatter : List Int)
    (nbIter : Nat) (x y : List Int) (ρ : PId → Int) :
    (buildScattering mld ctxp scatter nbIter).memB x y ρ
      = ((x.length == nbIter && y.length == (2 * mld + 1)) &&
         (List.range nbIter).all
           (fun i => (equateCond nbIter (2 * mld + 1) (2 * i + 1) i).holds (x ++ y) ρ) &&
         (List.range (nbIter + 1)).all
           (fun i => (fixOutCond nbIter (2 * mld + 1) (2 * i) (scatter.getD i 0)).holds (x ++ y) ρ) &&
         (List.range' (2 * nbIter + 1) (2 * mld + 1 - (2 * nbIter + 1))).all
           (fun j => (fixOutCond nbIter (2 * mld + 1) j 0).holds (x ++ y) ρ)) := by
  rw [buildScattering]
  rw [foldl_mapEquate_eq, foldl_mapFixOut_eq, foldl_mapFixOut_eq]
  simp only [foldl_addCon_nIn, foldl_addCon_nOut, mapUniverse]
  rw [memB_alignParams, memB_foldl_addCon, memB_foldl_addCon, memB_foldl_addCon]
  simp [IMap.memB, Bool.and_assoc]

/-- C1: in a built program model every statement's scattering relation has
exactly `2·MaxLoopDepth+1` output dimensions, independently of the
statement's own number of iterators; a pair (iteration vector, scattering
tuple) belongs to the relation precisely when output dimension `2i+1` equals
iteration dimension `i` for each of the statement's iterators, every even
output dimension `2i` with `i ≤ nbIter` equals the lexical-position counter
`scatter[i]`, and every output dimension beyond `2·nbIter` is zero. -/
theorem C1_scattering_shape (mld : Nat) (ctxp : List PId) (scatter : List Int)
    (nbIter : Nat) (hn : nbIter ≤ mld) (hs : scatter.length = mld + 1)
    (x y : List Int) (ρ : PId → Int) :
    (buildScattering mld ctxp scatter nbIter).nOut = 2 * mld + 1 ∧
    ((buildScattering mld ctxp scatter nbIter).memB x y ρ = true ↔
      (x.length = nbIter ∧ y.length = 2 * mld + 1 ∧
       (∀ i < nbIter, y.getD (2 * i + 1) 0 = x.getD i 0) ∧
       (∀ i < nbIter + 1, y.getD (2 * i) 0 = scatter.getD i 0) ∧
       (∀ j < 2 * mld + 1, 2 * nbIter + 1 ≤ j → y.getD j 0 = 0))) := by
  refine ⟨buildScattering_nOut mld ctxp scatter nbIter, ?_⟩
  rw [buildScattering_memB]
  simp only [Bool.and_eq_true, List.all_eq_true, List.mem_range, List.mem_range'_1,
    beq_iff_eq]
  constructor
  · rintro ⟨⟨⟨⟨hx, hy⟩, h1⟩, h2⟩, h3⟩
    refine ⟨hx, hy, ?_, ?_, ?_⟩
    · intro i hi
      have := h1 i hi
      rw [equateCond_holds _ _ _ _ _ _ _ hx hy hi (by omega)] at this
      have h' : x.getD i 0 = y.getD (2 * i + 1) 0 := by simpa using this
      exact h'.symm
    · intro i hi
      have := h2 i hi
      rw [fixOutCond_holds _ _ _ _ _ _ _ hx hy (by omega)] at this
      simpa using this
    · intro j hj1 hj2
      have := h3 j ⟨hj2, by omega⟩
      rw [fixOutCond_holds _ _ _ _ _ _ _ hx hy (by omega)] at this
      simpa using this
  · rintro ⟨hx, hy, h1, h2, h3⟩
    refine ⟨⟨⟨⟨hx, hy⟩, ?_⟩, ?_⟩, ?_⟩
    · intro i hi
      rw [equateCond_holds _ _ _ _ _ _ _ hx hy hi (by omega)]
      exact decide_eq_true (h1 i hi).symm
    · intro i hi
      rw [fixOutCond_holds _ _ _ _ _ _ _ hx hy (by omega)]
      exact decide_eq_true (h2 i hi)
    · intro j hj
      rw [fixOutCond_holds _ _ _ _ _ _ _ hx hy (by omega)]
      exact decide_eq_true (h3 j (by omega) (by omega))

/-- Witness for C1 at a concrete instance: region depth 2, a statement under
one loop, lexical counters `[3, 1, 0]`. -/
theorem C1_scattering_shape_witness :
    (1 ≤ 2 ∧ ([3, 1, 0] : List Int).length = 2 + 1) ∧
    ((buildScattering 2 [] [3, 1, 0] 1).nOut = 2 * 2 + 1 ∧
      ((buildScattering 2 [] [3, 1, 0] 1).memB [5] [3, 5, 1, 0, 0] (fun _ => 0) = true ↔
        (([5] : List Int).length = 1 ∧ ([3, 5, 1, 0, 0] : List Int).length = 2 * 2 + 1 ∧
         (∀ i < 1, ([3, 5, 1, 0, 0] : List Int).getD (2 * i + 1) 0 = ([5] : List Int).getD i 0) ∧
         (∀ i < 1 + 1, ([3, 5, 1, 0, 0] : List Int).getD (2 * i) 0 = ([3, 1, 0] : List Int).getD i 0) ∧
         (∀ j < 2 * 2 + 1, 2 * 1 + 1 ≤ j → ([3, 5, 1, 0, 0] : List Int).getD j 0 = 0)))) :=
  ⟨⟨by norm_num, by decide⟩,
   C1_scattering_shape 2 [] [3, 1, 0] 1 (by norm_num) (by decide) [5] [3, 5, 1, 0, 0] (fun _ => 0)⟩

/-! ### Non-affine accesses (claim C3) -/

/-- C3: for an access fact whose offset is not affine, construction still
succeeds and leaves the parameter table untouched; the relation is the
universal map from the statement's `nbIter`-dimensional iteration space to
the one-dimensional space of the base address, and a read stays a read while
a write degrades to a may-write. -/
theorem C3_nonaffine_access (T : Table) (nbIter : Nat) (ld : Nat → Nat) (acc : IRAccess)
    (h : acc.isAffine = false) :
    (mkMemoryAccess T nbIter ld acc).1 = T ∧
    ∃ m, (mkMemoryAccess T nbIter ld acc).2 = some m ∧
      m.accType = (if acc.isRead then AccType.read else AccType.mayWrite) ∧
      m.baseId = acc.baseId ∧
      m.rel = createBasicAccessMap nbIter ∧
      (∀ x y ρ, m.rel.memB x y ρ = (x.length == nbIter && y.length == 1)) := by
  cases hr : acc.isRead <;>
    simp [mkMemoryAccess, h, hr, createBasicAccessMap, memB_mapUniverse]

/-- Witness for C3: a non-affine store under two loops. -/
theorem C3_nonaffine_access_witness :
    (mkMemoryAccess [] 2 (fun _ => 0)
        ⟨false, 9, .addrec (.constant 0) (.constant 1) 0, 4, false⟩).1 = [] ∧
    ∃ m, (mkMemoryAccess [] 2 (fun _ => 0)
        ⟨false, 9, .addrec (.constant 0) (.constant 1) 0, 4, false⟩).2 = some m ∧
      m.accType = (if false then AccType.read else AccType.mayWrite) ∧
      m.baseId = 9 ∧
      m.rel = createBasicAccessMap 2 ∧
      (∀ x y ρ, m.rel.memB x y ρ = (x.length == 2 && y.length == 1)) :=
  C3_nonaffine_access [] 2 (fun _ => 0) ⟨false, 9, .addrec (.constant 0) (.constant 1) 0, 4, false⟩ rfl

/-! ### Well-formedness of translated piecewise-affine expressions -/

/-- Affine expressions produced by the translator: unit denominator,
coefficient list no longer than the input dimension count. -/
def AffWF (n : Nat) (a : AffE) : Prop :=
  a.den = 1 ∧ a.inCoeff.length ≤ n

/-- Well-formedness of a translated `PwAff` over `n` input dimensions. -/
def PwWF (n : Nat) (f : PwAff) : Prop :=
  f.nbIn = n ∧ ∀ p ∈ f.pieces, AffWF n p.aff ∧ ∀ c ∈ p.dom, AffWF n c.a

theorem zipPad_length (a b : List Int) :
    (zipPad a b).length = max a.length b.length := by
  induction a generalizing b with
  | nil => simp [zipPad]
  | cons ha ta ih =>
    cases b with
    | nil => simp [zipPad]
    | cons hb tb => simp [zipPad, ih]; omega

theorem affAdd_wf {n : Nat} {a b : AffE} (ha : AffWF n a) (hb : AffWF n b) :
    AffWF n (affAdd a b) := by
  obtain ⟨hd1, hl1⟩ := ha
  obtain ⟨hd2, hl2⟩ := hb
  refine ⟨by simp [affAdd_den, hd1, hd2], ?_⟩
  simp only [affAdd, zipPad_length, List.length_map]
  omega

theorem scaleAff_wf {n : Nat} {c : Int} {a : AffE} (ha : AffWF n a) :
    AffWF n (scaleAff c 1 a) := by
  obtain ⟨hd, hl⟩ := ha
  exact ⟨by simp [scaleAff_den, hd], by simpa [scaleAff] using hl⟩

theorem affSub_wf {n : Nat} {a b : AffE} (ha : AffWF n a) (hb : AffWF n b) :
    AffWF n (affSub a b) :=
  affAdd_wf ha (scaleAff_wf hb)

theorem decCst_wf {n : Nat} {a : AffE} (ha : AffWF n a) : AffWF n (decCst a) := by
  exact ⟨ha.1, ha.2⟩

theorem affMul_wf {n : Nat} {a b r : AffE} (ha : AffWF n a) (hb : AffWF n b)
    (h : affMul a b = some r) : AffWF n r := by
  rw [affMul] at h
  by_cases h1 : isCstA a = true
  · rw [if_pos h1] at h
    have h' : scaleAff a.cst a.den b = r := by
      simpa using h
    subst h'
    refine ⟨?_, ?_⟩
    · simp [scaleAff_den, hb.1, ha.1]
    · simpa [scaleAff] using hb.2
  · rw [if_neg h1] at h
    by_cases h2 : isCstA b = true
    · rw [if_pos h2] at h
      have h' : scaleAff b.cst b.den a = r := by
        simpa using h
      subst h'
      refine ⟨?_, ?_⟩
      · simp [scaleAff_den, ha.1, hb.1]
      · simpa [scaleAff] using ha.2
    · rw [if_neg h2] at h
      simp at h

theorem constPwAff_wf (n : Nat) (c : Int) : PwWF n (constPwAff n c) := by
  refine ⟨rfl, ?_⟩
  intro p hp
  simp only [constPwAff, List.mem_singleton] at hp
  subst hp
  exact ⟨⟨rfl, by simp [zeroAffOn]⟩, by simp⟩

theorem paramPwAff_wf (n : Nat) (id : PId) : PwWF n (paramPwAff n id) := by
  refine ⟨rfl, ?_⟩
  intro p hp
  simp only [paramPwAff, List.mem_singleton] at hp
  subst hp
  exact ⟨⟨rfl, by simp [zeroAffOn]⟩, by simp⟩

theorem unitPwAff_wf (n i : Nat) : PwWF n (unitPwAff n i) := by
  refine ⟨rfl, ?_⟩
  intro p hp
  simp only [unitPwAff, List.mem_singleton] at hp
  subst hp
  exact ⟨⟨rfl, by simp [zeroAffOn]⟩, by simp⟩

theorem pwAdd_wf {n : Nat} {f g : PwAff} (hf : PwWF n f) (hg : PwWF n g) :
    PwWF n (pwAdd f g) := by
  refine ⟨hf.1, ?_⟩
  intro p hp
  simp only [pwAdd, List.mem_flatMap, List.mem_map] at hp
  obtain ⟨a, hqa, b, hqb, rfl⟩ := hp
  obtain ⟨hwa, hda⟩ := hf.2 a hqa
  obtain ⟨hwb, hdb⟩ := hg.2 b hqb
  refine ⟨affAdd_wf hwa hwb, ?_⟩
  intro c hc
  rcases List.mem_append.mp hc with h | h
  · exact hda c h
  · exact hdb c h

theorem allSome_mem {l : List (Option α)} {r : List α} (h : allSome l = some r)
    {a : α} (ha : a ∈ r) : some a ∈ l := by
  induction l generalizing r with
  | nil =>
    simp only [allSome, Option.some.injEq] at h
    subst h
    simp at ha
  | cons o t ih =>
    cases o with
    | none => simp [allSome] at h
    | some b =>
      simp only [allSome] at h
      cases ht : allSome t with
      | none =>
        rw [ht] at h
        exact absurd h (by simp)
      | some rt =>
        rw [ht] at h
        simp only [Option.map_some', Option.some.injEq] at h
        subst h
        rcases List.mem_cons.mp ha with rfl | hmem
        · exact List.mem_cons_self _ _
        · exact List.mem_cons_of_mem _ (ih ht hmem)

theorem pwMul_wf {n : Nat} {f g h : PwAff} (hf : PwWF n f) (hg : PwWF n g)
    (hm : pwMul f g = some h) : PwWF n h := by
  rw [pwMul] at hm
  cases hs : allSome (f.pieces.flatMap fun p => g.pieces.map fun q =>
      (affMul p.aff q.aff).map fun a => (⟨p.dom ++ q.dom, a⟩ : Piece)) with
  | none =>
    rw [hs] at hm
    exact absurd hm (by simp)
  | some ps =>
    rw [hs] at hm
    simp only [Option.map_some', Option.some.injEq] at hm
    subst hm
    refine ⟨hf.1, ?_⟩
    intro p hp
    have hsome : (some p) ∈ (f.pieces.flatMap fun p => g.pieces.map fun q =>
        (affMul p.aff q.aff).map fun a => (⟨p.dom ++ q.dom, a⟩ : Piece)) := by
      have := allSome_mem hs hp
      exact this
    simp only [List.mem_flatMap, List.mem_map] at hsome
    obtain ⟨a, hqa, b, hqb, hab⟩ := hsome
    cases hmul : affMul a.aff b.aff with
    | none => rw [hmul] at hab; simp at hab
    | some r =>
      rw [hmul] at hab
      simp only [Option.map_some', Option.some.injEq] at hab
      obtain ⟨hwa, hda⟩ := hf.2 a hqa
      obtain ⟨hwb, hdb⟩ := hg.2 b hqb
      rw [← hab]
      refine ⟨affMul_wf hwa hwb hmul, ?_⟩
      intro c hc
      rcases List.mem_append.mp hc with h | h
      · exact hda c h
      · exact hdb c h

theorem pwMax_wf {n : Nat} {f g : PwAff} (hf : PwWF n f) (hg : PwWF n g) :
    PwWF n (pwMax f g) := by
  refine ⟨hf.1, ?_⟩
  intro p hp
  simp only [pwMax, List.mem_flatMap] at hp
  obtain ⟨a, hqa, hp2⟩ := hp
  obtain ⟨b, hqb, hp3⟩ := hp2
  obtain ⟨hwa, hda⟩ := hf.2 a hqa
  obtain ⟨hwb, hdb⟩ := hg.2 b hqb
  simp only [List.mem_cons, List.mem_singleton, List.not_mem_nil, or_false] at hp3
  rcases hp3 with rfl | rfl
  · refine ⟨hwa, ?_⟩
    intro c hc
    rcases List.mem_append.mp hc with h | h
    · rcases List.mem_append.mp h with h2 | h2
      · exact hda c h2
      · exact hdb c h2
    · simp only [List.mem_singleton] at h
      subst h
      exact affSub_wf hwa hwb
  · refine ⟨hwb, ?_⟩
    intro c hc
    rcases List.mem_append.mp hc with h | h
    · rcases List.mem_append.mp h with h2 | h2
      · exact hda c h2
      · exact hdb c h2
    · simp only [List.mem_singleton] at h
      subst h
      exact decCst_wf (affSub_wf hwb hwa)

theorem addStep_wf {n : Nat} {a b r : PwAff} (ha : PwWF n a) (hb : PwWF n b)
    (h : addStep a b = some r) : PwWF n r := by
  rw [addStep] at h
  cases h
  exact pwAdd_wf ha hb

theorem mulStep_wf {n : Nat} {a b r : PwAff} (ha : PwWF n a) (hb : PwWF n b)
    (h : mulStep a b = some r) : PwWF n r := by
  rw [mulStep] at h
  by_cases hc : (!isCstPw a && !isCstPw b) = true
  · rw [if_pos hc] at h
    exact absurd h (by simp)
  · rw [if_neg hc] at h
    exact pwMul_wf ha hb h

theorem maxStep_wf {n : Nat} {a b r : PwAff} (ha : PwWF n a) (hb : PwWF n b)
    (h : maxStep a b = some r) : PwWF n r := by
  rw [maxStep] at h
  cases h
  exact pwMax_wf ha hb

theorem foldCombine_wf {n : Nat} {step : PwAff → PwAff → Option PwAff}
    (hstep : ∀ a b r, PwWF n a → PwWF n b → step a b = some r → PwWF n r) :
    ∀ (vs : List PwAff) (acc r : PwAff), PwWF n acc → (∀ v ∈ vs, PwWF n v) →
      foldCombine step acc vs = some r → PwWF n r
  | [], acc, r, hacc, _, h => by
    rw [foldCombine] at h
    cases h
    exact hacc
  | v :: vs, acc, r, hacc, hvs, h => by
    rw [foldCombine] at h
    cases hs : step acc v with
    | none => rw [hs] at h; exact absurd h (by simp)
    | some acc2 =>
      rw [hs] at h
      exact foldCombine_wf hstep vs acc2 r
        (hstep acc v acc2 hacc (hvs v (by simp)) hs)
        (fun w hw => hvs w (by simp [hw])) h

theorem mergeOps_wf {n : Nat} {step : PwAff → PwAff → Option PwAff}
    (hstep : ∀ a b r, PwWF n a → PwWF n b → step a b = some r → PwWF n r)
    (vs : List (Option PwAff)) (r : PwAff)
    (hvs : ∀ f, some f ∈ vs → PwWF n f)
    (h : mergeOps step vs = some r) : PwWF n r := by
  rw [mergeOps] at h
  cases hs : allSome vs with
  | none => rw [hs] at h; exact absurd h (by simp)
  | some l =>
    rw [hs] at h
    cases l with
    | nil => exact absurd h (by simp)
    | cons v rest =>
      exact foldCombine_wf hstep rest v r
        (hvs v (allSome_mem hs (by simp)))
        (fun w hw => hvs w (allSome_mem hs (by simp [hw]))) h

mutual
theorem visitRaw_wf (T : Table) (n : Nat) (ld : Nat → Nat) :
    (e : SCEV) → (f : PwAff) → visitRaw T n ld e = some f → PwWF n f
  | .constant c, f, h => by
    rw [visitRaw] at h
    cases h
    exact constPwAff_wf n c
  | .add ops, f, h => by
    rw [visitRaw] at h
    exact mergeOps_wf (fun a b r ha hb hr => addStep_wf ha hb hr) _ f
      (fun g hg => visitL_wf T n ld ops g hg) h
  | .mul ops, f, h => by
    rw [visitRaw] at h
    exact mergeOps_wf (fun a b r ha hb hr => mulStep_wf ha hb hr) _ f
      (fun g hg => visitL_wf T n ld ops g hg) h
  | .smax ops, f, h => by
    rw [visitRaw] at h
    exact mergeOps_wf (fun a b r ha hb hr => maxStep_wf ha hb hr) _ f
      (fun g hg => visitL_wf T n ld ops g hg) h
  | .umax _, f, h => by
    rw [visitRaw] at h
    exact absurd h (by simp)
  | .sext op, f, h => by
    rw [visitRaw] at h
    cases hl : lookupParam T op with
    | some i =>
      rw [hl] at h
      cases h
      exact paramPwAff_wf n (.table i)
    | none =>
      rw [hl] at h
      exact visitRaw_wf T n ld op f h
  | .zext _, f, h => by
    rw [visitRaw] at h
    exact absurd h (by simp)
  | .trunc _, f, h => by
    rw [visitRaw] at h
    exact absurd h (by simp)
  | .udiv _ _, f, h => by
    rw [visitRaw] at h
    exact absurd h (by simp)
  | .addrec st sp lp, f, h => by
    rw [visitRaw] at h
    have hs : ∀ g, (match lookupParam T st with
        | some i => some (paramPwAff n (.table i))
        | none => visitRaw T n ld st) = some g → PwWF n g := by
      intro g hg
      cases hl : lookupParam T st with
      | some i => rw [hl] at hg; cases hg; exact paramPwAff_wf n (.table i)
      | none => rw [hl] at hg; exact visitRaw_wf T n ld st g hg
    have hp : ∀ g, (match lookupParam T sp with
        | some i => some (paramPwAff n (.table i))
        | none => visitRaw T n ld sp) = some g → PwWF n g := by
      intro g hg
      cases hl : lookupParam T sp with
      | some i => rw [hl] at hg; cases hg; exact paramPwAff_wf n (.table i)
      | none => rw [hl] at hg; exact visitRaw_wf T n ld sp g hg
    cases h1 : (match lookupParam T st with
        | some i => some (paramPwAff n (.table i))
        | none => visitRaw T n ld st) with
    | none =>
      rw [h1] at h
      dsimp only at h
      exact absurd h (by simp)
    | some s =>
      cases h2 : (match lookupParam T sp with
          | some i => some (paramPwAff n (.table i))
          | none => visitRaw T n ld sp) with
      | none =>
        rw [h1, h2] at h
        dsimp only at h
        exact absurd h (by simp)
      | some p =>
        rw [h1, h2] at h
        dsimp only at h
        cases h3 : pwMul p (unitPwAff n (ld lp)) with
        | none =>
          rw [h3] at h
          exact absurd h (by simp)
        | some q =>
          rw [h3] at h
          cases h
          exact pwAdd_wf (hs s h1) (pwMul_wf (hp p h2) (unitPwAff_wf n (ld lp)) h3)
  | .unknown u, f, h => by
    rw [visitRaw] at h
    cases h
    exact paramPwAff_wf n (.value u)
theorem visitL_wf (T : Table) (n : Nat) (ld : Nat → Nat) :
    (l : SCEVList) → (f : PwAff) → some f ∈ visitL T n ld l → PwWF n f
  | .nil, f, h => by
    rw [visitL] at h
    exact absurd h (by simp)
  | .cons e t, f, h => by
    rw [visitL] at h
    rcases List.mem_cons.mp h with he | ht
    · cases hl : lookupParam T e with
      | some i =>
        rw [hl] at he
        cases he
        exact paramPwAff_wf n (.table i)
      | none =>
        rw [hl] at he
        exact visitRaw_wf T n ld e f he.symm
    · exact visitL_wf T n ld t f ht
end

/-- All piecewise-affine expressions produced by the translator are
well-formed: unit denominators and coefficient vectors within the statement's
iteration dimensionality. -/
theorem visit_wf {T : Table} {n : Nat} {ld : Nat → Nat} {e : SCEV} {f : PwAff}
    (h : visit T n ld e = some f) : PwWF n f := by
  rw [visit] at h
  cases hl : lookupParam T e with
  | some i =>
    rw [hl] at h
    cases h
    exact paramPwAff_wf n (.table i)
  | none =>
    rw [hl] at h
    exact visitRaw_wf T n ld e f h

theorem getPwAff_wf {T : Table} {n : Nat} {ld : Nat → Nat} {e : SCEV} {f : PwAff}
    (h : (getPwAff T n ld e).2 = some f) : PwWF n f :=
  visit_wf h

/-! ### Affine access relations (claim C4) -/

theorem all_congr_mem {xs : List α} {p q : α → Bool} (h : ∀ u ∈ xs, p u = q u) :
    xs.all p = xs.all q := by
  induction xs with
  | nil => rfl
  | cons u t ih =>
    rw [List.all_cons, List.all_cons, h u (List.mem_cons_self u t),
      ih (fun v hv => h v (List.mem_cons_of_mem u hv))]

theorem padTo_length_of_le (n : Nat) (l : List Int) (h : l.length ≤ n) :
    (padTo n l).length = n := by
  simp [padTo]
  omega

/-- A constraint mentioning only the first `x.length` dimensions ignores
appended coordinates. -/
theorem Cond.holds_append_of_le (c : Cond) (x y : List Int) (ρ : PId → Int)
    (h : c.a.inCoeff.length ≤ x.length) :
    c.holds (x ++ y) ρ = c.holds x ρ := by
  have : c.a.evalNum (x ++ y) ρ = c.a.evalNum x ρ := by
    simp only [AffE.evalNum, dot_append_of_length_le _ _ _ h]
  cases c with
  | mk k a =>
    cases k <;> simp only [Cond.holds] at * <;> rw [this]

theorem satDom_append_of_wf {n : Nat} {p : Piece} (hp : ∀ c ∈ p.dom, AffWF n c.a)
    (x y : List Int) (ρ : PId → Int) (hx : x.length = n) :
    p.dom.all (fun c => c.holds (x ++ y) ρ) = satDom x ρ p := by
  rw [satDom]
  apply all_congr_mem
  intro c hc
  exact Cond.holds_append_of_le c x y ρ (by rw [hx]; exact (hp c hc).2)

/-- Membership in the graph of a translated and element-size-scaled access
function: the pair `(x, [q])` is in the relation exactly when some piece is
defined at `x` and `elemSize · q` equals the numerator of the translated
offset there. -/
theorem memB_mapFromPwAff_scaleDown {n : Nat} {f : PwAff} (hwf : PwWF n f) (e : Int)
    (x y : List Int) (ρ : PId → Int) :
    (mapFromPwAff (pwScaleDown f e)).memB x y ρ = true ↔
      (x.length = n ∧ ∃ y0, y = [y0] ∧ ∃ p ∈ f.pieces, satDom x ρ p = true ∧
        e * y0 = p.aff.evalNum x ρ) := by
  obtain ⟨hn, hpw⟩ := hwf
  simp only [mapFromPwAff, pwScaleDown, IMap.memB, List.map_map, any_map_general,
    Bool.and_eq_true, List.any_eq_true, beq_iff_eq, Function.comp]
  constructor
  · rintro ⟨⟨hx, hy⟩, p, hp, hall⟩
    obtain ⟨y0, rfl⟩ := List.length_eq_one.mp hy
    have hx' : x.length = n := by rw [hx, hn]
    rw [List.all_append, Bool.and_eq_true] at hall
    obtain ⟨hdom, heq⟩ := hall
    refine ⟨hx', y0, rfl, p, hp, ?_, ?_⟩
    · rw [← satDom_append_of_wf (fun c hc => ((hpw p hp).2 c hc)) x [y0] ρ hx']
      exact hdom
    · simp only [List.all_cons, List.all_nil, Bool.and_true, Cond.holds_eq0] at heq
      have heval : AffE.evalNum
          ⟨padTo f.nbIn (p.aff.inCoeff.map (fun c => -c)) ++ [p.aff.den * e],
           pscale (-1) p.aff.par, -p.aff.cst, 1⟩ (x ++ [y0]) ρ
          = p.aff.den * e * y0 - p.aff.evalNum x ρ := by
        simp only [AffE.evalNum]
        rw [dot_append_exact _ _ _ _ (by
          rw [padTo_length_of_le _ _ (by rw [List.length_map, hn]; exact (hpw p hp).1.2)]
          exact hx.symm)]
        rw [dot_padTo, dot_map_neg, psum_pscale]
        simp only [dot]
        ring
      rw [heval] at heq
      have hden : p.aff.den = 1 := (hpw p hp).1.1
      have h0 := of_decide_eq_true heq
      rw [hden] at h0
      linarith
  · rintro ⟨hx, y0, rfl, p, hp, hdom, heq⟩
    refine ⟨⟨by rw [hx, hn], rfl⟩, p, hp, ?_⟩
    rw [List.all_append, Bool.and_eq_true]
    refine ⟨?_, ?_⟩
    · rw [satDom_append_of_wf (fun c hc => ((hpw p hp).2 c hc)) x [y0] ρ hx]
      exact hdom
    · simp only [List.all_cons, List.all_nil, Bool.and_true, Cond.holds_eq0]
      have heval : AffE.evalNum
          ⟨padTo f.nbIn (p.aff.inCoeff.map (fun c => -c)) ++ [p.aff.den * e],
           pscale (-1) p.aff.par, -p.aff.cst, 1⟩ (x ++ [y0]) ρ
          = p.aff.den * e * y0 - p.aff.evalNum x ρ := by
        simp only [AffE.evalNum]
        rw [dot_append_exact _ _ _ _ (by
          rw [padTo_length_of_le _ _ (by rw [List.length_map, hn]; exact (hpw p hp).1.2)]
          rw [hx, hn])]
        rw [dot_padTo, dot_map_neg, psum_pscale]
        simp only [dot]
        ring
      rw [heval]
      have hden : p.aff.den = 1 := (hpw p hp).1.1
      rw [hden]
      exact decide_eq_true (by linarith)

/-- C4: for an affine access fact, the built relation is the graph of the
translated offset divided by the element size: wherever the translated
offset is defined and divisible by the element size the relation maps the
iteration point to exactly `offset / elemSize`, and every pair in the
relation arises this way — in particular the division is exact at every
point of the relation. -/
theorem C4_affine_access (T : Table) (nbIter : Nat) (ld : Nat → Nat) (acc : IRAccess)
    (haff : acc.isAffine = true) (f : PwAff)
    (hf : (getPwAff T nbIter ld acc.offset).2 = some f)
    (he : 0 < acc.elemSize) :
    ∃ m, (mkMemoryAccess T nbIter ld acc).2 = some m ∧
      m.accType = (if acc.isRead then AccType.read else AccType.write) ∧
      m.baseId = acc.baseId ∧
      (∀ x y ρ, m.rel.memB x y ρ = true ↔
        (x.length = nbIter ∧ ∃ y0, y = [y0] ∧ ∃ p ∈ f.pieces, satDom x ρ p = true ∧
          acc.elemSize * y0 = p.aff.evalNum x ρ)) ∧
      (∀ x ρ p, x.length = nbIter → p ∈ f.pieces → satDom x ρ p = true →
        acc.elemSize ∣ p.aff.evalNum x ρ →
        m.rel.memB x [p.aff.evalNum x ρ / acc.elemSize] ρ = true) ∧
      (∀ x y ρ, m.rel.memB x y ρ = true →
        ∃ p ∈ f.pieces, satDom x ρ p = true ∧ acc.elemSize ∣ p.aff.evalNum x ρ ∧
          y = [p.aff.evalNum x ρ / acc.elemSize]) := by
  have hwf : PwWF nbIter f := getPwAff_wf hf
  have hne : acc.elemSize ≠ 0 := by omega
  have hbuild : (mkMemoryAccess T nbIter ld acc).2
      = some ⟨if acc.isRead then AccType.read else AccType.write, acc.baseId,
              mapFromPwAff (pwScaleDown f acc.elemSize)⟩ := by
    rw [mkMemoryAccess] at *
    simp only [haff, Bool.not_true, Bool.false_eq_true, if_false]
    rw [show (getPwAff T nbIter ld acc.offset) = ((getPwAff T nbIter ld acc.offset).1,
        (getPwAff T nbIter ld acc.offset).2) from rfl, hf]
  refine ⟨_, hbuild, rfl, rfl, ?_, ?_, ?_⟩
  · intro x y ρ
    exact memB_mapFromPwAff_scaleDown hwf acc.elemSize x y ρ
  · intro x ρ p hx hp hdom hdvd
    rw [memB_mapFromPwAff_scaleDown hwf acc.elemSize]
    exact ⟨hx, p.aff.evalNum x ρ / acc.elemSize, rfl, p, hp, hdom,
      Int.mul_ediv_cancel' hdvd⟩
  · intro x y ρ hm
    rw [memB_mapFromPwAff_scaleDown hwf acc.elemSize] at hm
    obtain ⟨hx, y0, rfl, p, hp, hdom, heq⟩ := hm
    have hdvd : acc.elemSize ∣ p.aff.evalNum x ρ := Dvd.intro y0 (by omega)
    refine ⟨p, hp, hdom, hdvd, ?_⟩
    have : p.aff.evalNum x ρ / acc.elemSize = y0 := by
      rw [← heq]
      exact Int.mul_ediv_cancel_left y0 hne
    rw [this]

/-- Concrete access fact used by the C4 witness: the access `A[2 + 3*i]`
with element size 1 under one loop. -/
def c4acc : IRAccess :=
  ⟨true, 7, .addrec (.constant 2) (.constant 3) 0, 1, true⟩

/-- The translated offset of `c4acc` in a one-loop statement. -/
def c4f : PwAff :=
  ((getPwAff [] 1 (fun _ => 0) c4acc.offset).2).getD (constPwAff 1 0)

/-- Witness for C4 at the concrete access `c4acc`. -/
theorem C4_affine_access_witness :
    (c4acc.isAffine = true ∧ (getPwAff [] 1 (fun _ => 0) c4acc.offset).2 = some c4f ∧
      (0 : Int) < c4acc.elemSize) ∧
    (∃ m, (mkMemoryAccess [] 1 (fun _ => 0) c4acc).2 = some m ∧
      m.accType = (if c4acc.isRead then AccType.read else AccType.write) ∧
      m.baseId = c4acc.baseId ∧
      (∀ x y ρ, m.rel.memB x y ρ = true ↔
        (x.length = 1 ∧ ∃ y0, y = [y0] ∧ ∃ p ∈ c4f.pieces, satDom x ρ p = true ∧
          c4acc.elemSize * y0 = p.aff.evalNum x ρ)) ∧
      (∀ x ρ p, x.length = 1 → p ∈ c4f.pieces → satDom x ρ p = true →
        c4acc.elemSize ∣ p.aff.evalNum x ρ →
        m.rel.memB x [p.aff.evalNum x ρ / c4acc.elemSize] ρ = true) ∧
      (∀ x y ρ, m.rel.memB x y ρ = true →
        ∃ p ∈ c4f.pieces, satDom x ρ p = true ∧ c4acc.elemSize ∣ p.aff.evalNum x ρ ∧
          y = [p.aff.evalNum x ρ / c4acc.elemSize])) :=
  ⟨⟨rfl, by decide, by decide⟩,
   C4_affine_access [] 1 (fun _ => 0) c4acc rfl c4f (by decide) (by decide)⟩

/-! ### Comparison condition sets (claim C7) -/

/-- The four unsigned relational predicates. -/
def Pred.isUnsigned : Pred → Bool
  | .ult => true
  | .ule => true
  | .ugt => true
  | .uge => true
  | _ => false

/-- Meaning of the supported comparison predicates on integer values. -/
def signedPredSem (p : Pred) (a b : Int) : Prop :=
  match p with
  | .eq => a = b
  | .ne => a ≠ b
  | .slt => a < b
  | .sle => a ≤ b
  | .sgt => a > b
  | .sge => a ≥ b
  | _ => False

theorem pwLeSet_iff_of_wf {n : Nat} {L R : PwAff} (hL : PwWF n L) (hR : PwWF n R)
    (x : List Int) (ρ : PId → Int) :
    (pwLeSet L R).memB x ρ = true ↔
      (x.length = n ∧ ∃ p ∈ L.pieces, ∃ q ∈ R.pieces,
        satDom x ρ p = true ∧ satDom x ρ q = true ∧
        p.aff.evalNum x ρ ≤ q.aff.evalNum x ρ) := by
  rw [memB_pwLeSet]
  simp only [Bool.and_eq_true, List.any_eq_true, beq_iff_eq, hL.1]
  constructor
  · rintro ⟨hx, p, hp, q, hq, hsat⟩
    simp only [Bool.and_eq_true, decide_eq_true_eq] at hsat
    obtain ⟨⟨h1, h2⟩, h3⟩ := hsat
    rw [(hL.2 p hp).1.1, (hR.2 q hq).1.1, mul_one, mul_one] at h3
    exact ⟨hx, p, hp, q, hq, h1, h2, h3⟩
  · rintro ⟨hx, p, hp, q, hq, h1, h2, h3⟩
    refine ⟨hx, p, hp, q, hq, ?_⟩
    simp only [Bool.and_eq_true, decide_eq_true_eq]
    rw [(hL.2 p hp).1.1, (hR.2 q hq).1.1, mul_one, mul_one]
    exact ⟨⟨h1, h2⟩, h3⟩

theorem pwLtSet_iff_of_wf {n : Nat} {L R : PwAff} (hL : PwWF n L) (hR : PwWF n R)
    (x : List Int) (ρ : PId → Int) :
    (pwLtSet L R).memB x ρ = true ↔
      (x.length = n ∧ ∃ p ∈ L.pieces, ∃ q ∈ R.pieces,
        satDom x ρ p = true ∧ satDom x ρ q = true ∧
        p.aff.evalNum x ρ < q.aff.evalNum x ρ) := by
  rw [memB_pwLtSet]
  simp only [Bool.and_eq_true, List.any_eq_true, beq_iff_eq, hL.1]
  constructor
  · rintro ⟨hx, p, hp, q, hq, hsat⟩
    simp only [Bool.and_eq_true, decide_eq_true_eq] at hsat
    obtain ⟨⟨h1, h2⟩, h3⟩ := hsat
    rw [(hL.2 p hp).1.1, (hR.2 q hq).1.1, mul_one, mul_one] at h3
    exact ⟨hx, p, hp, q, hq, h1, h2, h3⟩
  · rintro ⟨hx, p, hp, q, hq, h1, h2, h3⟩
    refine ⟨hx, p, hp, q, hq, ?_⟩
    simp only [Bool.and_eq_true, decide_eq_true_eq]
    rw [(hL.2 p hp).1.1, (hR.2 q hq).1.1, mul_one, mul_one]
    exact ⟨⟨h1, h2⟩, h3⟩

theorem pwEqSet_iff_of_wf {n : Nat} {L R : PwAff} (hL : PwWF n L) (hR : PwWF n R)
    (x : List Int) (ρ : PId → Int) :
    (pwEqSet L R).memB x ρ = true ↔
      (x.length = n ∧ ∃ p ∈ L.pieces, ∃ q ∈ R.pieces,
        satDom x ρ p = true ∧ satDom x ρ q = true ∧
        p.aff.evalNum x ρ = q.aff.evalNum x ρ) := by
  rw [memB_pwEqSet]
  simp only [Bool.and_eq_true, List.any_eq_true, beq_iff_eq, hL.1]
  constructor
  · rintro ⟨hx, p, hp, q, hq, hsat⟩
    simp only [Bool.and_eq_true, decide_eq_true_eq] at hsat
    obtain ⟨⟨h1, h2⟩, h3⟩ := hsat
    rw [(hL.2 p hp).1.1, (hR.2 q hq).1.1, mul_one, mul_one] at h3
    exact ⟨hx, p, hp, q, hq, h1, h2, h3⟩
  · rintro ⟨hx, p, hp, q, hq, h1, h2, h3⟩
    refine ⟨hx, p, hp, q, hq, ?_⟩
    simp only [Bool.and_eq_true, decide_eq_true_eq]
    rw [(hL.2 p hp).1.1, (hR.2 q hq).1.1, mul_one, mul_one]
    exact ⟨⟨h1, h2⟩, h3⟩

theorem pwNeSet_iff_of_wf {n : Nat} {L R : PwAff} (hL : PwWF n L) (hR : PwWF n R)
    (x : List Int) (ρ : PId → Int) :
    (pwNeSet L R).memB x ρ = true ↔
      (x.length = n ∧ ∃ p ∈ L.pieces, ∃ q ∈ R.pieces,
        satDom x ρ p = true ∧ satDom x ρ q = true ∧
        p.aff.evalNum x ρ ≠ q.aff.evalNum x ρ) := by
  rw [memB_pwNeSet]
  simp only [Bool.and_eq_true, List.any_eq_true, beq_iff_eq, hL.1]
  constructor
  · rintro ⟨hx, p, hp, q, hq, hsat⟩
    simp only [Bool.and_eq_true, decide_eq_true_eq] at hsat
    obtain ⟨⟨h1, h2⟩, h3⟩ := hsat
    rw [(hL.2 p hp).1.1, (hR.2 q hq).1.1, mul_one, mul_one] at h3
    exact ⟨hx, p, hp, q, hq, h1, h2, h3⟩
  · rintro ⟨hx, p, hp, q, hq, h1, h2, h3⟩
    refine ⟨hx, p, hp, q, hq, ?_⟩
    simp only [Bool.and_eq_true, decide_eq_true_eq]
    rw [(hL.2 p hp).1.1, (hR.2 q hq).1.1, mul_one, mul_one]
    exact ⟨⟨h1, h2⟩, h3⟩

/-- C7: condition-set translation supports exactly the equal, not-equal and
four signed relational predicates, producing the comparison set of the two
translated operands, and yields a hard failure on every unsigned relational
predicate. -/
theorem C7_condition_predicates (T : Table) (n : Nat) (ld : Nat → Nat) (c : Cmp) :
    (c.pred.isUnsigned = true → (buildConditionSet T n ld c).2 = none) ∧
    (c.pred.isUnsigned = false →
      ∀ L R, (getPwAff T n ld c.lhs).2 = some L →
        (getPwAff (getPwAff T n ld c.lhs).1 n ld c.rhs).2 = some R →
        ∃ s, (buildConditionSet T n ld c).2 = some s ∧
          ∀ x ρ, s.memB x ρ = true ↔
            (x.length = n ∧ ∃ p ∈ L.pieces, ∃ q ∈ R.pieces,
              satDom x ρ p = true ∧ satDom x ρ q = true ∧
              signedPredSem c.pred (p.aff.evalNum x ρ) (q.aff.evalNum x ρ))) := by
  constructor
  · intro hu
    rw [buildConditionSet]
    cases h1 : (getPwAff T n ld c.lhs).2 with
    | none => rfl
    | some L =>
      cases h2 : (getPwAff (getPwAff T n ld c.lhs).1 n ld c.rhs).2 with
      | none => rfl
      | some R =>
        cases hp : c.pred <;> simp_all [Pred.isUnsigned]
  · intro hu L R h1 h2
    have hL : PwWF n L := getPwAff_wf h1
    have hR : PwWF n R := getPwAff_wf h2
    rw [buildConditionSet]
    simp only [h1, h2]
    cases hp : c.pred
    case eq =>
      exact ⟨_, rfl, fun x ρ => by
        rw [pwEqSet_iff_of_wf hL hR x ρ]
        simp [signedPredSem, hp]⟩
    case ne =>
      exact ⟨_, rfl, fun x ρ => by
        rw [pwNeSet_iff_of_wf hL hR x ρ]
        simp [signedPredSem, hp]⟩
    case slt =>
      exact ⟨_, rfl, fun x ρ => by
        rw [pwLtSet_iff_of_wf hL hR x ρ]
        simp [signedPredSem, hp]⟩
    case sle =>
      exact ⟨_, rfl, fun x ρ => by
        rw [pwLeSet_iff_of_wf hL hR x ρ]
        simp [signedPredSem, hp]⟩
    case sgt =>
      refine ⟨_, rfl, fun x ρ => ?_⟩
      rw [pwGtSet, pwLtSet_iff_of_wf hR hL x ρ]
      simp only [signedPredSem, hp]
      constructor
      · rintro ⟨hx, q, hq, p, hp2, hs1, hs2, hlt⟩
        exact ⟨hx, p, hp2, q, hq, hs2, hs1, hlt⟩
      · rintro ⟨hx, p, hp2, q, hq, hs1, hs2, hlt⟩
        exact ⟨hx, q, hq, p, hp2, hs2, hs1, hlt⟩
    case sge =>
      refine ⟨_, rfl, fun x ρ => ?_⟩
      rw [pwGeSet, pwLeSet_iff_of_wf hR hL x ρ]
      simp only [signedPredSem, hp]
      constructor
      · rintro ⟨hx, q, hq, p, hp2, hs1, hs2, hle⟩
        exact ⟨hx, p, hp2, q, hq, hs2, hs1, hle⟩
      · rintro ⟨hx, p, hp2, q, hq, hs1, hs2, hle⟩
        exact ⟨hx, q, hq, p, hp2, hs2, hs1, hle⟩
    case ult => rw [hp] at hu; exact absurd hu (by simp [Pred.isUnsigned])
    case ule => rw [hp] at hu; exact absurd hu (by simp [Pred.isUnsigned])
    case ugt => rw [hp] at hu; exact absurd hu (by simp [Pred.isUnsigned])
    case uge => rw [hp] at hu; exact absurd hu (by simp [Pred.isUnsigned])

/-- Comparison fact used by the C7 witness. -/
def c7cmp : Cmp :=
  ⟨.addrec (.constant 0) (.constant 1) 0, .unknown 3, .slt⟩

/-- The translated sides of `c7cmp`. -/
def c7L : PwAff :=
  ((getPwAff [] 1 (fun _ => 0) c7cmp.lhs).2).getD (constPwAff 1 0)

/-- The translated right side of `c7cmp`. -/
def c7R : PwAff :=
  ((getPwAff (getPwAff [] 1 (fun _ => 0) c7cmp.lhs).1 1 (fun _ => 0) c7cmp.rhs).2).getD
    (constPwAff 1 0)

/-- Witness for C7 at a concrete signed comparison and an unsigned one. -/
theorem C7_condition_predicates_witness :
    ((Cmp.mk c7cmp.lhs c7cmp.rhs .ult).pred.isUnsigned = true ∧
      (buildConditionSet [] 1 (fun _ => 0) ⟨c7cmp.lhs, c7cmp.rhs, .ult⟩).2 = none) ∧
    (c7cmp.pred.isUnsigned = false ∧
      (getPwAff [] 1 (fun _ => 0) c7cmp.lhs).2 = some c7L ∧
      (getPwAff (getPwAff [] 1 (fun _ => 0) c7cmp.lhs).1 1 (fun _ => 0) c7cmp.rhs).2 = some c7R ∧
      ∃ s, (buildConditionSet [] 1 (fun _ => 0) c7cmp).2 = some s ∧
        ∀ x ρ, s.memB x ρ = true ↔
          (x.length = 1 ∧ ∃ p ∈ c7L.pieces, ∃ q ∈ c7R.pieces,
            satDom x ρ p = true ∧ satDom x ρ q = true ∧
            signedPredSem c7cmp.pred (p.aff.evalNum x ρ) (q.aff.evalNum x ρ))) :=
  ⟨⟨rfl, (C7_condition_predicates [] 1 (fun _ => 0) ⟨c7cmp.lhs, c7cmp.rhs, .ult⟩).1 rfl⟩,
   ⟨rfl, by decide, by decide,
    (C7_condition_predicates [] 1 (fun _ => 0) c7cmp).2 rfl c7L c7R (by decide) (by decide)⟩⟩

/-! ### Iteration-domain characterization (claim C5) -/

/-- The per-level translations of the loop bounds, with the parameter table
threaded exactly as `addLoopBoundsToDomain` threads it. -/
def boundAffs (n : Nat) (ld : Nat → Nat) (bounds : List SCEV) :
    List Nat → Table → List (Option PwAff)
  | [], _ => []
  | i :: is, T =>
    match getPwAff T n ld (bounds.getD i (.constant 0)) with
    | (T1, ub) => ub :: boundAffs n ld bounds is T1

/-- The translated condition sets of the comparison facts, with the
parameter table threaded exactly as `addConditionsToDomain` threads it. -/
def condSets (n : Nat) (ld : Nat → Nat) : List Cmp → Table → List (Option ISet)
  | [], _ => []
  | c :: cs, T =>
    match buildConditionSet T n ld c with
    | (T1, s) => s :: condSets n ld cs T1

/-- The upper-bound constraint of one loop level: the iterator value is at
most the translated trip count, wherever the latter is defined. -/
def ivLeB (x : List Int) (ρ : PId → Int) (i : Nat) (f : PwAff) : Prop :=
  ∃ q ∈ f.pieces, satDom x ρ q = true ∧ x.getD i 0 ≤ q.aff.evalNum x ρ

theorem evalNum_unitAff (n i : Nat) (x : List Int) (ρ : PId → Int)
    (hx : x.length = n) (hi : i < n) :
    AffE.evalNum { zeroAffOn n with inCoeff := (List.replicate n 0).set i 1 } x ρ
      = x.getD i 0 := by
  simp only [AffE.evalNum, zeroAffOn, psum_nil]
  rw [dot_set, dot_replicate_zero]
  rw [getD_replicate_self _ _ _ _ hi]
  simp [hx, hi]

theorem memB_nonneg_unit (n i : Nat) (hi : i < n) (x : List Int) (ρ : PId → Int) :
    (pwNonnegSet (unitPwAff n i)).memB x ρ = true ↔
      (x.length = n ∧ 0 ≤ x.getD i 0) := by
  rw [memB_pwNonnegSet]
  simp only [unitPwAff, List.any_cons, List.any_nil, Bool.or_false, Bool.and_eq_true,
    beq_iff_eq, decide_eq_true_eq, satDom, List.all_nil, true_and, Bool.true_and]
  constructor
  · rintro ⟨hx, hv⟩
    rw [evalNum_unitAff n i x ρ hx hi] at hv
    exact ⟨hx, hv⟩
  · rintro ⟨hx, hv⟩
    refine ⟨hx, ?_⟩
    rw [evalNum_unitAff n i x ρ hx hi]
    exact hv

theorem memB_le_unit {n : Nat} (i : Nat) (hi : i < n) {ub : PwAff} (hub : PwWF n ub)
    (x : List Int) (ρ : PId → Int) :
    (pwLeSet (unitPwAff n i) ub).memB x ρ = true ↔
      (x.length = n ∧ ivLeB x ρ i ub) := by
  rw [pwLeSet_iff_of_wf (unitPwAff_wf n i) hub x ρ]
  constructor
  · rintro ⟨hx, p, hp, q, hq, hs1, hs2, hle⟩
    simp only [unitPwAff, List.mem_singleton] at hp
    subst hp
    rw [evalNum_unitAff n i x ρ hx hi] at hle
    exact ⟨hx, q, hq, hs2, hle⟩
  · rintro ⟨hx, q, hq, hs2, hle⟩
    refine ⟨hx, ⟨[], { zeroAffOn n with inCoeff := (List.replicate n 0).set i 1 }⟩,
      by simp [unitPwAff], q, hq, by simp [satDom], hs2, ?_⟩
    rw [evalNum_unitAff n i x ρ hx hi]
    exact hle

theorem addLoopBoundsAux_char (n : Nat) (ld : Nat → Nat) (bounds : List SCEV) :
    ∀ (is : List Nat) (T : Table) (dom : ISet) (T2 : Table) (dom2 : ISet),
      addLoopBoundsAux n ld bounds is T dom = (T2, some dom2) →
      dom.nbIn = n →
      (∀ i ∈ is, i < n) →
      dom2.nbIn = n ∧
      ∃ ubs : List PwAff,
        boundAffs n ld bounds is T = ubs.map some ∧
        ubs.length = is.length ∧
        (∀ u ∈ ubs, PwWF n u) ∧
        (∀ x ρ, dom2.memB x ρ = true ↔
          (dom.memB x ρ = true ∧ ∀ k < is.length,
            0 ≤ x.getD (is.getD k 0) 0 ∧
              ivLeB x ρ (is.getD k 0) (ubs.getD k (constPwAff n 0))))
  | [], T, dom, T2, dom2, h, hdom, _ => by
    rw [addLoopBoundsAux] at h
    cases h
    refine ⟨hdom, [], rfl, rfl, ?_, ?_⟩
    · intro u hu
      exact absurd hu (by simp)
    · intro x ρ
      constructor
      · intro hm
        exact ⟨hm, fun k hk => absurd hk (by simp)⟩
      · intro hm
        exact hm.1
  | i :: is, T, dom, T2, dom2, h, hdom, his => by
    rw [addLoopBoundsAux] at h
    cases hg : getPwAff T n ld (bounds.getD i (.constant 0)) with
    | mk T1 ub? =>
      rw [hg] at h
      cases ub? with
      | none => exact absurd h (by simp)
      | some ub =>
        have hi : i < n := his i (by simp)
        have hub : PwWF n ub := getPwAff_wf (by rw [hg])
        have hdom' : ((dom.inter (pwNonnegSet (unitPwAff n i))).inter
            (pwLeSet (unitPwAff n i) ub)).nbIn = n := by
          simp [inter_nbIn, hdom]
        obtain ⟨hn2, ubs, hba, hlen, hwfs, hmem⟩ :=
          addLoopBoundsAux_char n ld bounds is T1 _ T2 dom2 h hdom'
            (fun j hj => his j (by simp [hj]))
        refine ⟨hn2, ub :: ubs, ?_, by simp [hlen], ?_, ?_⟩
        · rw [boundAffs, hg]
          dsimp only
          rw [hba]
          rfl
        · intro u hu
          rcases List.mem_cons.mp hu with rfl | hu2
          · exact hub
          · exact hwfs u hu2
        · intro x ρ
          rw [hmem x ρ]
          rw [memB_inter _ _ (by simp [inter_nbIn, hdom, pwLeSet, pwPairSet, unitPwAff]) x ρ,
              memB_inter _ _ (by simp [hdom, pwNonnegSet, unitPwAff]) x ρ]
          simp only [Bool.and_eq_true]
          constructor
          · rintro ⟨⟨⟨hd, hnn⟩, hle⟩, hrest⟩
            obtain ⟨hx, hnn'⟩ := (memB_nonneg_unit n i hi x ρ).mp hnn
            obtain ⟨_, hle'⟩ := (memB_le_unit i hi hub x ρ).mp hle
            refine ⟨hd, ?_⟩
            intro k hk
            cases k with
            | zero => exact ⟨by simpa using hnn', by simpa using hle'⟩
            | succ k2 =>
              have := hrest k2 (by simpa using hk)
              simpa using this
          · rintro ⟨hd, hall⟩
            have h0 := hall 0 (by simp)
            simp only [List.getD_cons_zero] at h0
            have hx : x.length = n := by
              by_contra hne
              rw [ISet.memB] at hd
              simp only [Bool.and_eq_true, beq_iff_eq] at hd
              exact hne (by rw [hd.1, hdom])
            refine ⟨⟨⟨hd, ?_⟩, ?_⟩, ?_⟩
            · exact (memB_nonneg_unit n i hi x ρ).mpr ⟨hx, h0.1⟩
            · exact (memB_le_unit i hi hub x ρ).mpr ⟨hx, h0.2⟩
            · intro k hk
              have := hall (k + 1) (by simpa using hk)
              simpa using this

theorem buildConditionSet_nbIn {T : Table} {n : Nat} {ld : Nat → Nat} {c : Cmp}
    {s : ISet} (h : (buildConditionSet T n ld c).2 = some s) : s.nbIn = n := by
  rw [buildConditionSet] at h
  cases h1 : (getPwAff T n ld c.lhs).2 with
  | none =>
    rw [h1] at h
    exact absurd h (by simp)
  | some L =>
    cases h2 : (getPwAff (getPwAff T n ld c.lhs).1 n ld c.rhs).2 with
    | none =>
      rw [h1, h2] at h
      exact absurd h (by simp)
    | some R =>
      rw [h1, h2] at h
      have hL : L.nbIn = n := (getPwAff_wf h1).1
      have hR : R.nbIn = n := (getPwAff_wf h2).1
      cases hp : c.pred <;> rw [hp] at h
      · cases h; exact hL
      · cases h; exact hL
      · cases h; exact hL
      · cases h; exact hL
      · cases h; exact hR
      · cases h; exact hR
      · cases h
      · cases h
      · cases h
      · cases h

theorem addConditionsToDomain_char (n : Nat) (ld : Nat → Nat) :
    ∀ (cs : List Cmp) (T : Table) (dom : ISet) (T2 : Table) (dom2 : ISet),
      addConditionsToDomain n ld cs T dom = (T2, some dom2) →
      dom.nbIn = n →
      dom2.nbIn = n ∧
      ∃ css : List ISet,
        condSets n ld cs T = css.map some ∧
        css.length = cs.length ∧
        (∀ x ρ, dom2.memB x ρ = true ↔
          (dom.memB x ρ = true ∧ ∀ s ∈ css, s.memB x ρ = true))
  | [], T, dom, T2, dom2, h, hdom => by
    rw [addConditionsToDomain] at h
    cases h
    exact ⟨hdom, [], rfl, rfl, fun x ρ => by simp⟩
  | c :: cs, T, dom, T2, dom2, h, hdom => by
    rw [addConditionsToDomain] at h
    cases hg : buildConditionSet T n ld c with
    | mk T1 s? =>
      rw [hg] at h
      cases s? with
      | none => exact absurd h (by simp)
      | some cset =>
        have hsn : cset.nbIn = n := buildConditionSet_nbIn (by rw [hg])
        obtain ⟨hn2, css, hcs2, hlen, hmem⟩ :=
          addConditionsToDomain_char n ld cs T1 _ T2 dom2 h (by simp [inter_nbIn, hdom])
        refine ⟨hn2, cset :: css, ?_, by simp [hlen], ?_⟩
        · rw [condSets, hg]
          dsimp only
          rw [hcs2]
          rfl
        · intro x ρ
          rw [hmem x ρ, memB_inter _ _ (by rw [hdom, hsn]) x ρ]
          simp only [Bool.and_eq_true, List.mem_cons]
          constructor
          · rintro ⟨⟨hd, hs⟩, hrest⟩
            refine ⟨hd, ?_⟩
            rintro s (rfl | hmem2)
            · exact hs
            · exact hrest s hmem2
          · rintro ⟨hd, hall⟩
            exact ⟨⟨hd, hall cset (by simp)⟩, fun s hs => hall s (by simp [hs])⟩

theorem getD_range (n k : Nat) (h : k < n) : (List.range n).getD k 0 = k := by
  rw [List.getD_eq_getElem?_getD, List.getElem?_range h]
  rfl

/-- C5: the built iteration domain of a statement with `n` enclosing loops
contains exactly the length-`n` integer vectors that satisfy, for every loop
level `i` (outermost to innermost), `0 ≤ iv_i` and `iv_i ≤ B_i` — where
`B_i` is the translation of the `i`-th backedge-taken count in this
statement's context — and that lie in every translated condition set of the
branch conditions reaching the block.  With `n = 0` the domain is
zero-dimensional and constrained only by the condition sets. -/
theorem C5_domain_construction (T : Table) (n : Nat) (ld : Nat → Nat)
    (bounds : List SCEV) (conds : List Cmp) (T2 : Table) (dom : ISet)
    (h : buildDomain T n ld bounds conds = (T2, some dom)) :
    ∃ (ubs : List PwAff) (css : List ISet),
      boundAffs n ld bounds (List.range n) T = ubs.map some ∧
      ubs.length = n ∧
      condSets n ld conds (addLoopBoundsToDomain T n ld bounds (setUniverse [] n)).1
        = css.map some ∧
      css.length = conds.length ∧
      (∀ x ρ, dom.memB x ρ = true ↔
        (x.length = n ∧
         (∀ i < n, 0 ≤ x.getD i 0 ∧ ivLeB x ρ i (ubs.getD i (constPwAff n 0))) ∧
         (∀ s ∈ css, s.memB x ρ = true))) := by
  rw [buildDomain] at h
  cases hb : addLoopBoundsToDomain T n ld bounds (setUniverse [] n) with
  | mk T1 d? =>
    rw [hb] at h
    cases d? with
    | none => exact absurd h (by simp)
    | some d1 =>
      have hchar1 := addLoopBoundsAux_char n ld bounds (List.range n) T
        (setUniverse [] n) T1 d1 hb rfl (fun i hi => List.mem_range.mp hi)
      obtain ⟨hd1n, ubs, hba, hlen, hwfs, hmem1⟩ := hchar1
      have hchar2 := addConditionsToDomain_char n ld conds T1 d1 T2 dom h hd1n
      obtain ⟨hdomn, css, hcs, hclen, hmem2⟩ := hchar2
      refine ⟨ubs, css, hba, by simpa using hlen, hcs, hclen, ?_⟩
      intro x ρ
      rw [hmem2 x ρ, hmem1 x ρ, memB_setUniverse]
      constructor
      · rintro ⟨⟨hu, hb2⟩, hc2⟩
        have hx : x.length = n := by simpa using hu
        refine ⟨hx, ?_, hc2⟩
        intro i hi
        have := hb2 i (by simpa using hi)
        rwa [getD_range n i hi] at this
      · rintro ⟨hx, hb2, hc2⟩
        refine ⟨⟨by simpa using hx, ?_⟩, hc2⟩
        intro k hk
        have hk' : k < n := by simpa using hk
        rw [getD_range n k hk']
        exact hb2 k hk'

/-- Concrete input of the C5 witness: one loop with trip count 9 and one
trivially true branch condition. -/
def c5build : Table × Option ISet :=
  buildDomain [] 1 (fun _ => 0) [.constant 9] [⟨.constant 0, .constant 1, .sle⟩]

/-- Witness for C5 at the concrete one-loop statement. -/
theorem C5_domain_construction_witness :
    (buildDomain [] 1 (fun _ => 0) [.constant 9] [⟨.constant 0, .constant 1, .sle⟩]
      = (c5build.1, some (c5build.2.getD (setUniverse [] 1)))) ∧
    ∃ (ubs : List PwAff) (css : List ISet),
      boundAffs 1 (fun _ => 0) [.constant 9] (List.range 1) [] = ubs.map some ∧
      ubs.length = 1 ∧
      condSets 1 (fun _ => 0) [⟨.constant 0, .constant 1, .sle⟩]
        (addLoopBoundsToDomain [] 1 (fun _ => 0) [.constant 9] (setUniverse [] 1)).1
        = css.map some ∧
      css.length = [(⟨.constant 0, .constant 1, .sle⟩ : Cmp)].length ∧
      (∀ x ρ, (c5build.2.getD (setUniverse [] 1)).memB x ρ = true ↔
        (x.length = 1 ∧
         (∀ i < 1, 0 ≤ x.getD i 0 ∧ ivLeB x ρ i (ubs.getD i (constPwAff 1 0))) ∧
         (∀ s ∈ css, s.memB x ρ = true))) :=
  ⟨by decide,
   C5_domain_construction [] 1 (fun _ => 0) [.constant 9] [⟨.constant 0, .constant 1, .sle⟩]
     c5build.1 (c5build.2.getD (setUniverse [] 1)) (by decide)⟩

/-! ### Dominator-walk condition collection (claim C8) and the
constant-condition path (claim C10) -/

theorem idomChain_head (G : CFG) (entry : Nat) :
    ∀ (fuel c : Nat) (l : List Nat), idomChain G entry fuel c = some l →
      ∃ l2, l = c :: l2 := by
  intro fuel c l h
  cases fuel with
  | zero =>
    rw [idomChain] at h
    by_cases hc : c = entry
    · rw [if_pos hc] at h
      cases h
      exact ⟨[], rfl⟩
    · rw [if_neg hc] at h
      exact absurd h (by simp)
  | succ f =>
    rw [idomChain] at h
    by_cases hc : c = entry
    · rw [if_pos hc] at h
      cases h
      exact ⟨[], rfl⟩
    · rw [if_neg hc] at h
      cases hr : idomChain G entry f (G.idom c) with
      | none => rw [hr] at h; exact absurd h (by simp)
      | some l2 =>
        rw [hr] at h
        cases h
        exact ⟨l2, rfl⟩

theorem buildCondition_chain (G : CFG) (bb entry : Nat) :
    ∀ (fuel cur : Nat) (ch : List Nat), idomChain G entry fuel cur = some ch →
      buildCondition G bb entry fuel cur
        = some ((ch.zip ch.tail).flatMap (fun pr => edgeConds G bb pr.1 pr.2)) := by
  intro fuel
  induction fuel with
  | zero =>
    intro cur ch h
    rw [idomChain] at h
    by_cases hc : cur = entry
    · rw [if_pos hc] at h
      cases h
      rw [buildCondition, if_pos hc]
      rfl
    · rw [if_neg hc] at h
      exact absurd h (by simp)
  | succ f ih =>
    intro cur ch h
    rw [idomChain] at h
    by_cases hc : cur = entry
    · rw [if_pos hc] at h
      cases h
      rw [buildCondition, if_pos hc]
      rfl
    · rw [if_neg hc] at h
      cases hr : idomChain G entry f (G.idom cur) with
      | none => rw [hr] at h; exact absurd h (by simp)
      | some l =>
        rw [hr] at h
        cases h
        obtain ⟨l2, rfl⟩ := idomChain_head G entry f (G.idom cur) l hr
        rw [buildCondition, if_neg hc, ih (G.idom cur) _ hr]
        simp only [List.tail_cons, List.zip_cons_cons, List.flatMap_cons]
        rfl

/-- C8: the conjunction recorded for a block `bb` consists of exactly one
comparison per conditional branch met while walking the immediate-dominator
chain from `bb` to the region entry, except that a dominator's branch is
skipped when the node below it post-dominates it; each recorded comparison is
built from the branch's condition with the predicate inverted exactly when
the branch's false successor dominates `bb`. -/
theorem C8_condition_walk (G : CFG) (bb entry fuel : Nat) (ch : List Nat)
    (h : idomChain G entry fuel bb = some ch) :
    buildCondition G bb entry fuel bb
      = some ((ch.zip ch.tail).flatMap (fun pr => edgeConds G bb pr.1 pr.2)) ∧
    (∀ cur parent, G.pdomB cur parent = true → edgeConds G bb cur parent = []) ∧
    (∀ cur parent, G.pdomB cur parent = false → G.termOf parent = .uncond →
      edgeConds G bb cur parent = []) ∧
    (∀ cur parent c st sf, G.pdomB cur parent = false → G.termOf parent = .br c st sf →
      edgeConds G bb cur parent = [buildAffineCondition c (G.domB sf bb)]) ∧
    (∀ l r p inverted, buildAffineCondition (.icmp l r p) inverted
      = ⟨l, r, if inverted then invPred p else p⟩) := by
  refine ⟨buildCondition_chain G bb entry fuel bb ch h, ?_, ?_, ?_, ?_⟩
  · intro cur parent hp
    rw [edgeConds, if_pos hp]
  · intro cur parent hp ht
    rw [edgeConds, if_neg (by simp [hp]), ht]
  · intro cur parent c st sf hp ht
    rw [edgeConds, if_neg (by simp [hp]), ht]
  · intro l r p inverted
    rfl

/-- Control-flow graph of the C8 witness: entry 0 branches on `u0 < 5` to 1
(then) or 3 (else); block 1 branches on a constant to 2; the walked block is
2. -/
def c8G : CFG :=
  { idom := fun b => if b = 2 then 1 else 0,
    domB := fun a b => decide (a = b) || decide (a = 0) || (decide (a = 1) && decide (b = 2)),
    pdomB := fun _ _ => false,
    termOf := fun b =>
      if b = 0 then .br (.icmp (.unknown 0) (.constant 5) .slt) 1 3
      else if b = 1 then .br (.cint true) 2 4
      else .uncond }

/-- Witness for C8 on the concrete three-block chain `2 → 1 → 0`. -/
theorem C8_condition_walk_witness :
    (idomChain c8G 0 5 2 = some [2, 1, 0]) ∧
    (buildCondition c8G 2 0 5 2
      = some ((([2, 1, 0].zip [2, 1, 0].tail)).flatMap
          (fun pr => edgeConds c8G 2 pr.1 pr.2)) ∧
     (∀ cur parent, c8G.pdomB cur parent = true → edgeConds c8G 2 cur parent = []) ∧
     (∀ cur parent, c8G.pdomB cur parent = false → c8G.termOf parent = .uncond →
       edgeConds c8G 2 cur parent = []) ∧
     (∀ cur parent c st sf, c8G.pdomB cur parent = false →
       c8G.termOf parent = .br c st sf →
       edgeConds c8G 2 cur parent = [buildAffineCondition c (c8G.domB sf 2)]) ∧
     (∀ l r p inverted, buildAffineCondition (.icmp l r p) inverted
       = ⟨l, r, if inverted then invPred p else p⟩)) :=
  ⟨by decide, C8_condition_walk c8G 2 0 5 [2, 1, 0] (by decide)⟩

/-- C10 (code bug in the constant-condition path): when the branch condition
is the constant true and the block lies on the then side (`inverted` false) —
i.e. the constant selects the edge toward the block — the source records the
always-false comparison `0 ≥ 1`, whose condition set is empty and therefore
empties the domain of a block that is in fact always executed; with
`inverted` true it records the always-true `0 ≤ 1`, leaving the domain of an
unreachable block unconstrained.  This contradicts the source's own comment
("If this is always true condition, we will create 0 <= 1") and the claim. -/
theorem C10_constant_condition :
    buildAffineCondition (.cint true) false = ⟨.constant 0, .constant 1, .sge⟩ ∧
    buildAffineCondition (.cint true) true = ⟨.constant 0, .constant 1, .sle⟩ ∧
    buildAffineCondition (.cint false) true = ⟨.constant 0, .constant 1, .sge⟩ ∧
    buildAffineCondition (.cint false) false = ⟨.constant 0, .constant 1, .sle⟩ ∧
    (∃ s, (buildConditionSet [] 0 (fun _ => 0)
        (buildAffineCondition (.cint true) false)).2 = some s ∧
      (∀ x ρ, s.memB x ρ = false)) ∧
    (∃ s, (buildConditionSet [] 0 (fun _ => 0)
        (buildAffineCondition (.cint true) true)).2 = some s ∧
      s.memB [] (fun _ => 0) = true) := by
  refine ⟨rfl, rfl, rfl, rfl,
    ⟨pwGeSet (constPwAff 0 0) (constPwAff 0 1), by decide, ?_⟩,
    ⟨pwLeSet (constPwAff 0 0) (constPwAff 0 1), by decide, by decide⟩⟩
  intro x ρ
  show (pwGeSet (constPwAff 0 0) (constPwAff 0 1)).memB x ρ = false
  rw [pwGeSet, pwLeSet, memB_pwPairSet]
  simp only [satDom, constPwAff, Cond.holds, affSub, affAdd, scaleAff, AffE.evalNum,
    zeroAffOn, psum, pscale, pplus, paddOne]
  simp [Cond.holds, AffE.evalNum]
  intro hx
  subst hx
  decide

/-! ### Opaque parameters (claim C9) -/

theorem find?_append_none {l1 l2 : List α} {p : α → Bool} (h : l1.find? p = none) :
    (l1 ++ l2).find? p = l2.find? p := by
  induction l1 with
  | nil => rfl
  | cons a t ih =>
    rw [List.cons_append]
    rw [List.find?_cons] at h ⊢
    cases hp : p a with
    | true => rw [hp] at h; simp at h
    | false => rw [hp] at h; exact ih h

theorem lookupParam_append_self {T : Table} {e : SCEV} (h : lookupParam T e = none)
    (k : Nat) : lookupParam (T ++ [(e, k)]) e = some k := by
  rw [lookupParam] at h ⊢
  cases hf : T.find? (fun kv => decide (kv.1 = e)) with
  | some kv => rw [hf] at h; simp at h
  | none =>
    rw [find?_append_none hf]
    simp

/-- C9: an expression recorded as a parameter translates — whatever its
shape — to the affine expression whose only term is that parameter's
existing dimension with coefficient one; an opaque value not on record is
registered by `getPwAff` at the next free dimension index and translates to
that fresh dimension with coefficient one; a parameter expression has a
single universe piece whose value is exactly the parameter. -/
theorem C9_opaque_parameters (T : Table) (n : Nat) (ld : Nat → Nat) :
    (∀ e i, lookupParam T e = some i →
      visit T n ld e = some (paramPwAff n (.table i))) ∧
    (∀ u, lookupParam T (.unknown u) = none →
      getPwAff T n ld (.unknown u)
        = (T ++ [(.unknown u, T.length)], some (paramPwAff n (.table T.length)))) ∧
    ((∀ kv ∈ T, kv.2 < T.length) →
      ∀ kv ∈ T, PId.table T.length ≠ PId.table kv.2) ∧
    (∀ id x ρ, (paramPwAff n id).pieces
        = [⟨[], { zeroAffOn n with par := [(id, 1)] }⟩] ∧
      AffE.evalNum { zeroAffOn n with par := [(id, 1)] } x ρ = ρ id) := by
  refine ⟨?_, ?_, ?_, ?_⟩
  · intro e i h
    rw [visit, h]
  · intro u h
    have hT2 : addParams T (paramsInAffineExpr (.unknown u))
        = T ++ [(.unknown u, T.length)] := by
      rw [paramsInAffineExpr, addParams]
      simp [h]
    rw [getPwAff]
    simp only [hT2]
    rw [visit, lookupParam_append_self h T.length]
  · intro hlt kv hkv hcontra
    have h1 := hlt kv hkv
    injection hcontra with h2
    omega
  · intro id x ρ
    refine ⟨rfl, ?_⟩
    simp only [AffE.evalNum, zeroAffOn, dot_replicate_zero, psum_cons, psum_nil]
    ring

/-- Witness for C9: a table holding one parameter; a registered unknown is
reused at dimension 0, an unregistered one gets the fresh dimension 1. -/
theorem C9_opaque_parameters_witness :
    (lookupParam [(.unknown 5, 0)] (.unknown 5) = some 0 ∧
      visit [(.unknown 5, 0)] 1 (fun _ => 0) (.unknown 5)
        = some (paramPwAff 1 (.table 0))) ∧
    (lookupParam [(.unknown 5, 0)] (.unknown 7) = none ∧
      getPwAff [(.unknown 5, 0)] 1 (fun _ => 0) (.unknown 7)
        = ([(.unknown 5, 0), (.unknown 7, 1)], some (paramPwAff 1 (.table 1)))) ∧
    ((∀ kv ∈ ([(.unknown 5, 0)] : Table), kv.2 < 1) ∧
      ∀ kv ∈ ([(.unknown 5, 0)] : Table), PId.table 1 ≠ PId.table kv.2) :=
  ⟨⟨by decide, (C9_opaque_parameters [(.unknown 5, 0)] 1 (fun _ => 0)).1 (.unknown 5) 0 (by decide)⟩,
   ⟨by decide, (C9_opaque_parameters [(.unknown 5, 0)] 1 (fun _ => 0)).2.1 7 (by decide)⟩,
   ⟨by decide, (C9_opaque_parameters [(.unknown 5, 0)] 1 (fun _ => 0)).2.2.1 (by decide)⟩⟩

/-! ### Product collapse (claim C6) -/

/-- An affine expression that is constantly zero. -/
def allZeroA (a : AffE) : Bool :=
  isCstA a && a.cst == 0

/-- A piecewise-affine expression that is zero on every piece. -/
def allZeroPw (f : PwAff) : Bool :=
  f.pieces.all (fun p => allZeroA p.aff)

/-- Number of successfully translated, non-constant entries in an operand
translation list. -/
def optNonCst : List (Option PwAff) → Nat
  | [] => 0
  | none :: t => optNonCst t
  | some v :: t => (if isCstPw v then 0 else 1) + optNonCst t

/-- Number of factors of a product node whose translation in context
`T`, `n`, `ld` succeeds and is non-constant. -/
def nonCstCount (T : Table) (n : Nat) (ld : Nat → Nat) (ops : SCEVList) : Nat :=
  optNonCst (visitL T n ld ops)

/-- Number of non-constant expressions in a list. -/
def countNC (l : List PwAff) : Nat :=
  (l.filter (fun v => !isCstPw v)).length

theorem allZeroA_isCstA {a : AffE} (h : allZeroA a = true) : isCstA a = true := by
  rw [allZeroA, Bool.and_eq_true] at h
  exact h.1

theorem allZeroPw_isCstPw {f : PwAff} (h : allZeroPw f = true) : isCstPw f = true := by
  rw [allZeroPw, List.all_eq_true] at h
  rw [isCstPw, List.all_eq_true]
  intro p hp
  exact allZeroA_isCstA (h p hp)

theorem scaleAff_zero_allZero (d : Int) (b : AffE) : allZeroA (scaleAff 0 d b) = true := by
  simp [allZeroA, isCstA, scaleAff, pscale, List.all_eq_true]

theorem scaleAff_cst (c d : Int) {b : AffE} (hb : isCstA b = true) :
    isCstA (scaleAff c d b) = true := by
  rw [isCstA, Bool.and_eq_true, List.all_eq_true] at hb
  obtain ⟨h1, h2⟩ := hb
  rw [List.isEmpty_iff] at h2
  rw [scaleAff, isCstA]
  simp only [Bool.and_eq_true, List.all_eq_true]
  constructor
  · intro k hk
    simp only [List.mem_map] at hk
    obtain ⟨k0, hk0, rfl⟩ := hk
    have h3 := h1 k0 hk0
    simp only [beq_iff_eq] at h3 ⊢
    simp [h3]
  · simp only [h2, pscale]
    split <;> rfl

theorem scaleAff_allZero_right (c d : Int) {b : AffE} (hb : allZeroA b = true) :
    allZeroA (scaleAff c d b) = true := by
  rw [allZeroA, Bool.and_eq_true, beq_iff_eq] at hb
  rw [allZeroA, Bool.and_eq_true, beq_iff_eq]
  refine ⟨scaleAff_cst c d hb.1, ?_⟩
  show c * b.cst = 0
  rw [hb.2, mul_zero]

theorem scaleAff_noncst {c : Int} (hc : c ≠ 0) (d : Int) {b : AffE}
    (hb : isCstA b = false) : isCstA (scaleAff c d b) = false := by
  cases hs : isCstA (scaleAff c d b) with
  | false => rfl
  | true =>
    exfalso
    rw [scaleAff, isCstA, Bool.and_eq_true, List.all_eq_true] at hs
    obtain ⟨h1, h2⟩ := hs
    rw [isCstA] at hb
    have hall : b.inCoeff.all (fun k => k == 0) = true := by
      rw [List.all_eq_true]
      intro k hk
      have h3 := h1 (c * k) (List.mem_map_of_mem _ hk)
      simp only [beq_iff_eq] at h3 ⊢
      rcases mul_eq_zero.mp h3 with h4 | h4
      · exact absurd h4 hc
      · exact h4
    have hemp : b.par.isEmpty = true := by
      simp only [pscale] at h2
      rw [if_neg hc] at h2
      rw [List.isEmpty_iff] at h2 ⊢
      exact List.map_eq_nil.mp h2
    rw [hall, hemp] at hb
    simp at hb

theorem scaleAff_cst_nonzero {c : Int} (hc : c ≠ 0) (d : Int) {b : AffE}
    (hb : isCstA b = true) (hz : allZeroA b = false) :
    allZeroA (scaleAff c d b) = false := by
  have hcst : b.cst ≠ 0 := by
    intro h0
    rw [allZeroA, hb, h0] at hz
    simp at hz
  cases h : allZeroA (scaleAff c d b) with
  | false => rfl
  | true =>
    exfalso
    rw [allZeroA, Bool.and_eq_true, beq_iff_eq] at h
    have h5 : c * b.cst = 0 := h.2
    rcases mul_eq_zero.mp h5 with h6 | h6
    · exact hc h6
    · exact hcst h6

theorem all_false_exists {l : List α} {p : α → Bool} (h : l.all p = false) :
    ∃ x, x ∈ l ∧ p x = false := by
  induction l with
  | nil => simp at h
  | cons a t ih =>
    rw [List.all_cons] at h
    cases hp : p a with
    | false => exact ⟨a, List.mem_cons_self _ _, hp⟩
    | true =>
      rw [hp, Bool.true_and] at h
      obtain ⟨x, hx, hpx⟩ := ih h
      exact ⟨x, List.mem_cons_of_mem _ hx, hpx⟩

theorem all_false_of_mem {l : List α} {p : α → Bool} {x : α} (hx : x ∈ l)
    (h : p x = false) : l.all p = false := by
  cases ha : l.all p with
  | false => rfl
  | true =>
    rw [List.all_eq_true] at ha
    rw [ha x hx] at h
    exact absurd h (by simp)

theorem allSome_mem_rev {l : List (Option α)} {r : List α} (h : allSome l = some r)
    {o : Option α} (ho : o ∈ l) : ∃ w, w ∈ r ∧ o = some w := by
  induction l generalizing r with
  | nil => simp at ho
  | cons p t ih =>
    cases p with
    | none => simp [allSome] at h
    | some b =>
      rw [allSome] at h
      cases ht : allSome t with
      | none => rw [ht] at h; exact absurd h (by simp)
      | some rt =>
        rw [ht] at h
        simp only [Option.map_some', Option.some.injEq] at h
        subst h
        rcases List.mem_cons.mp ho with rfl | hmem
        · exact ⟨b, List.mem_cons_self _ _, rfl⟩
        · obtain ⟨w, hw, rfl⟩ := ih ht hmem
          exact ⟨w, List.mem_cons_of_mem _ hw, rfl⟩

theorem pwMul_mem_pair {a b c : PwAff} (h : pwMul a b = some c) {p q : Piece}
    (hp : p ∈ a.pieces) (hq : q ∈ b.pieces) :
    ∃ r0, affMul p.aff q.aff = some r0 ∧ (⟨p.dom ++ q.dom, r0⟩ : Piece) ∈ c.pieces := by
  rw [pwMul] at h
  cases hs : allSome (a.pieces.flatMap (fun p => b.pieces.map (fun q =>
      (affMul p.aff q.aff).map (fun x => (⟨p.dom ++ q.dom, x⟩ : Piece))))) with
  | none => rw [hs] at h; exact absurd h (by simp)
  | some ps =>
    rw [hs] at h
    simp only [Option.map_some', Option.some.injEq] at h
    subst h
    have hmem : (affMul p.aff q.aff).map (fun x => (⟨p.dom ++ q.dom, x⟩ : Piece))
        ∈ a.pieces.flatMap (fun p => b.pieces.map (fun q =>
          (affMul p.aff q.aff).map (fun x => (⟨p.dom ++ q.dom, x⟩ : Piece)))) := by
      rw [List.mem_flatMap]
      exact ⟨p, hp, List.mem_map_of_mem _ hq⟩
    obtain ⟨w, hw, heq⟩ := allSome_mem_rev hs hmem
    cases hm : affMul p.aff q.aff with
    | none => rw [hm] at heq; simp at heq
    | some r0 =>
      rw [hm] at heq
      simp only [Option.map_some', Option.some.injEq] at heq
      refine ⟨r0, rfl, ?_⟩
      show (⟨p.dom ++ q.dom, r0⟩ : Piece) ∈ ps
      rw [heq]
      exact hw

theorem pwMul_pieces_shape {a b c : PwAff} (h : pwMul a b = some c) {w : Piece}
    (hw : w ∈ c.pieces) :
    ∃ p, p ∈ a.pieces ∧ ∃ q, q ∈ b.pieces ∧ affMul p.aff q.aff = some w.aff := by
  rw [pwMul] at h
  cases hs : allSome (a.pieces.flatMap (fun p => b.pieces.map (fun q =>
      (affMul p.aff q.aff).map (fun x => (⟨p.dom ++ q.dom, x⟩ : Piece))))) with
  | none => rw [hs] at h; exact absurd h (by simp)
  | some ps =>
    rw [hs] at h
    simp only [Option.map_some', Option.some.injEq] at h
    subst h
    have hsw := allSome_mem hs hw
    rw [List.mem_flatMap] at hsw
    obtain ⟨p, hp, hmem⟩ := hsw
    rw [List.mem_map] at hmem
    obtain ⟨q, hq, heq⟩ := hmem
    cases hm : affMul p.aff q.aff with
    | none => rw [hm] at heq; simp at heq
    | some r0 =>
      rw [hm] at heq
      simp only [Option.map_some', Option.some.injEq] at heq
      refine ⟨p, hp, q, hq, ?_⟩
      rw [← heq]
      exact hm

theorem affMul_allZero {p q r0 : AffE} (h : affMul p q = some r0)
    (hz : allZeroA p = true ∨ allZeroA q = true) : allZeroA r0 = true := by
  rw [affMul] at h
  by_cases hp : isCstA p = true
  · rw [if_pos hp] at h
    simp only [Option.some.injEq] at h
    subst h
    rcases hz with hz | hz
    · rw [allZeroA, Bool.and_eq_true, beq_iff_eq] at hz
      rw [hz.2]
      exact scaleAff_zero_allZero p.den q
    · exact scaleAff_allZero_right _ _ hz
  · rw [if_neg hp] at h
    by_cases hq : isCstA q = true
    · rw [if_pos hq] at h
      simp only [Option.some.injEq] at h
      subst h
      rcases hz with hz | hz
      · exact scaleAff_allZero_right _ _ hz
      · rw [allZeroA, Bool.and_eq_true, beq_iff_eq] at hz
        rw [hz.2]
        exact scaleAff_zero_allZero q.den p
    · rw [if_neg hq] at h
      simp at h

theorem pwMul_allZero {a b c : PwAff} (h : pwMul a b = some c)
    (hz : allZeroPw a = true ∨ allZeroPw b = true) : allZeroPw c = true := by
  rw [allZeroPw, List.all_eq_true]
  intro w hw
  obtain ⟨p, hp, q, hq, hm⟩ := pwMul_pieces_shape h hw
  show allZeroA w.aff = true
  apply affMul_allZero hm
  rcases hz with hz | hz
  · rw [allZeroPw, List.all_eq_true] at hz
    exact Or.inl (hz p hp)
  · rw [allZeroPw, List.all_eq_true] at hz
    exact Or.inr (hz q hq)

theorem pwMul_noncst_left {a b c : PwAff} (h : pwMul a b = some c)
    (ha : isCstPw a = false) (hb : isCstPw b = true) (hzb : allZeroPw b = false) :
    isCstPw c = false := by
  rw [isCstPw] at ha
  obtain ⟨p, hp, hpc⟩ := all_false_exists ha
  rw [allZeroPw] at hzb
  obtain ⟨q, hq, hqz⟩ := all_false_exists hzb
  rw [isCstPw, List.all_eq_true] at hb
  have hqc : isCstA q.aff = true := hb q hq
  have hqcst : q.aff.cst ≠ 0 := by
    intro h0
    rw [allZeroA, hqc, h0] at hqz
    simp at hqz
  obtain ⟨r0, hm, hmem⟩ := pwMul_mem_pair h hp hq
  rw [affMul, if_neg (by simp [hpc]), if_pos hqc] at hm
  simp only [Option.some.injEq] at hm
  rw [isCstPw]
  apply all_false_of_mem hmem
  show isCstA r0 = false
  rw [← hm]
  exact scaleAff_noncst hqcst _ hpc

theorem pwMul_noncst_right {a b c : PwAff} (h : pwMul a b = some c)
    (ha : isCstPw a = true) (hza : allZeroPw a = false) (hb : isCstPw b = false) :
    isCstPw c = false := by
  rw [allZeroPw] at hza
  obtain ⟨p, hp, hpz⟩ := all_false_exists hza
  rw [isCstPw] at hb
  obtain ⟨q, hq, hqc⟩ := all_false_exists hb
  rw [isCstPw, List.all_eq_true] at ha
  have hpc : isCstA p.aff = true := ha p hp
  have hpcst : p.aff.cst ≠ 0 := by
    intro h0
    rw [allZeroA, hpc, h0] at hpz
    simp at hpz
  obtain ⟨r0, hm, hmem⟩ := pwMul_mem_pair h hp hq
  rw [affMul, if_pos hpc] at hm
  simp only [Option.some.injEq] at hm
  rw [isCstPw]
  apply all_false_of_mem hmem
  show isCstA r0 = false
  rw [← hm]
  exact scaleAff_noncst hpcst _ hqc

theorem pwMul_cst_nonzero {a b c : PwAff} (h : pwMul a b = some c)
    (ha : isCstPw a = true) (hza : allZeroPw a = false)
    (hb : isCstPw b = true) (hzb : allZeroPw b = false) :
    isCstPw c = true ∧ allZeroPw c = false := by
  constructor
  · rw [isCstPw, List.all_eq_true]
    intro w hw
    obtain ⟨p, hp, q, hq, hm⟩ := pwMul_pieces_shape h hw
    rw [isCstPw, List.all_eq_true] at ha hb
    have hpc := ha p hp
    rw [affMul, if_pos hpc] at hm
    simp only [Option.some.injEq] at hm
    show isCstA w.aff = true
    rw [← hm]
    exact scaleAff_cst _ _ (hb q hq)
  · rw [allZeroPw] at hza hzb
    obtain ⟨p, hp, hpz⟩ := all_false_exists hza
    obtain ⟨q, hq, hqz⟩ := all_false_exists hzb
    rw [isCstPw, List.all_eq_true] at ha hb
    have hpc := ha p hp
    have hpcst : p.aff.cst ≠ 0 := by
      intro h0
      rw [allZeroA, hpc, h0] at hpz
      simp at hpz
    obtain ⟨r0, hm, hmem⟩ := pwMul_mem_pair h hp hq
    rw [affMul, if_pos hpc] at hm
    simp only [Option.some.injEq] at hm
    rw [allZeroPw]
    apply all_false_of_mem hmem
    show allZeroA r0 = false
    rw [← hm]
    exact scaleAff_cst_nonzero hpcst _ (hb q hq) hqz

theorem mulStep_some {a b c : PwAff} (h : mulStep a b = some c) :
    pwMul a b = some c ∧ (isCstPw a = true ∨ isCstPw b = true) := by
  rw [mulStep] at h
  by_cases hg : (!isCstPw a && !isCstPw b) = true
  · rw [if_pos hg] at h
    exact absurd h (by simp)
  · rw [if_neg hg] at h
    refine ⟨h, ?_⟩
    cases ha : isCstPw a with
    | true => exact Or.inl rfl
    | false =>
      cases hb : isCstPw b with
      | true => exact Or.inr rfl
      | false =>
        exfalso
        apply hg
        rw [Bool.and_eq_true, Bool.not_eq_true', Bool.not_eq_true']
        exact ⟨ha, hb⟩

theorem foldCombine_allZero {vs : List PwAff} {acc r : PwAff}
    (h : foldCombine mulStep acc vs = some r) (hz : allZeroPw acc = true) :
    allZeroPw r = true := by
  induction vs generalizing acc with
  | nil =>
    rw [foldCombine] at h
    simp only [Option.some.injEq] at h
    subst h
    exact hz
  | cons v t ih =>
    rw [foldCombine] at h
    cases hm : mulStep acc v with
    | none => rw [hm] at h; simp at h
    | some acc2 =>
      rw [hm] at h
      obtain ⟨hmul, _⟩ := mulStep_some hm
      exact ih h (pwMul_allZero hmul (Or.inl hz))

theorem foldCombine_mul_count : ∀ (vs : List PwAff) (acc r : PwAff),
    foldCombine mulStep acc vs = some r →
    2 ≤ (if isCstPw acc then 0 else 1) + countNC vs →
    allZeroPw r = true := by
  intro vs
  induction vs with
  | nil =>
    intro acc r h hc
    rw [countNC] at hc
    simp only [List.filter_nil, List.length_nil] at hc
    by_cases ha : isCstPw acc = true
    · rw [if_pos ha] at hc; omega
    · rw [if_neg ha] at hc; omega
  | cons v t ih =>
    intro acc r h hc
    rw [foldCombine] at h
    cases hm : mulStep acc v with
    | none => rw [hm] at h; simp at h
    | some acc2 =>
      rw [hm] at h
      obtain ⟨hmul, hor⟩ := mulStep_some hm
      have hcnt : countNC (v :: t) = (if isCstPw v then 0 else 1) + countNC t := by
        rw [countNC, countNC, List.filter_cons]
        cases hv : isCstPw v with
        | true => simp [hv]
        | false => simp [hv]; omega
      rw [hcnt] at hc
      cases hza : allZeroPw acc with
      | true => exact foldCombine_allZero h (pwMul_allZero hmul (Or.inl hza))
      | false =>
        cases hzv : allZeroPw v with
        | true => exact foldCombine_allZero h (pwMul_allZero hmul (Or.inr hzv))
        | false =>
          cases ha : isCstPw acc with
          | false =>
            have hv : isCstPw v = true := by
              rcases hor with h1 | h1
              · rw [ha] at h1; exact absurd h1 (by simp)
              · exact h1
            have hacc2 : isCstPw acc2 = false := pwMul_noncst_left hmul ha hv hzv
            apply ih acc2 r h
            rw [if_neg (by simp [hacc2])]
            rw [if_neg (by simp [ha]), if_pos hv] at hc
            omega
          | true =>
            cases hv : isCstPw v with
            | false =>
              have hacc2 : isCstPw acc2 = false := pwMul_noncst_right hmul ha hza hv
              apply ih acc2 r h
              rw [if_neg (by simp [hacc2])]
              rw [if_pos ha, if_neg (by simp [hv])] at hc
              omega
            | true =>
              obtain ⟨hacc2c, hacc2z⟩ := pwMul_cst_nonzero hmul ha hza hv hzv
              apply ih acc2 r h
              rw [if_pos hacc2c]
              rw [if_pos ha, if_pos hv] at hc
              omega

theorem optNonCst_allSome {vs : List (Option PwAff)} {l : List PwAff}
    (h : allSome vs = some l) : optNonCst vs = countNC l := by
  induction vs generalizing l with
  | nil =>
    simp only [allSome, Option.some.injEq] at h
    subst h
    rfl
  | cons o t ih =>
    cases o with
    | none => simp [allSome] at h
    | some v =>
      rw [allSome] at h
      cases ht : allSome t with
      | none => rw [ht] at h; exact absurd h (by simp)
      | some lt =>
        rw [ht] at h
        simp only [Option.map_some', Option.some.injEq] at h
        subst h
        cases hv : isCstPw v with
        | true => simp [optNonCst, countNC, List.filter_cons, hv, ih ht]
        | false => simp [optNonCst, countNC, List.filter_cons, hv, ih ht]; omega

theorem mergeOps_mul_dichotomy {vs : List (Option PwAff)}
    (hc : 2 ≤ optNonCst vs) :
    mergeOps mulStep vs = none ∨
    ∃ r, mergeOps mulStep vs = some r ∧ allZeroPw r = true := by
  rw [mergeOps]
  cases hs : allSome vs with
  | none => exact Or.inl rfl
  | some l =>
    cases l with
    | nil => exact Or.inl rfl
    | cons v rest =>
      cases hf : foldCombine mulStep v rest with
      | none => exact Or.inl hf
      | some r =>
        refine Or.inr ⟨r, hf, ?_⟩
        apply foldCombine_mul_count rest v r hf
        rw [optNonCst_allSome hs, countNC, List.filter_cons] at hc
        cases hv : isCstPw v with
        | true =>
          rw [if_pos rfl, countNC]
          simp only [hv, Bool.not_true] at hc
          rw [if_neg (by simp)] at hc
          omega
        | false =>
          rw [if_neg (by simp), countNC]
          simp only [hv, Bool.not_false] at hc
          rw [if_pos trivial, List.length_cons] at hc
          omega

/-- C6 (amended): for a product expression not itself registered as a
parameter whose operand list holds two or more non-constant translated
factors, the translation either fails or — when a zero constant collapses
the running product before two non-constant factors meet — succeeds with
the constant-zero piecewise-affine function; it never produces a
non-constant affine result. -/
theorem C6_mul_amended (T : Table) (n : Nat) (ld : Nat → Nat) (ops : SCEVList)
    (hl : lookupParam T (.mul ops) = none)
    (hc : 2 ≤ nonCstCount T n ld ops) :
    visit T n ld (.mul ops) = none ∨
    ∃ r, visit T n ld (.mul ops) = some r ∧
      allZeroPw r = true ∧ isCstPw r = true := by
  rw [visit, hl]
  rw [nonCstCount] at hc
  rcases mergeOps_mul_dichotomy hc with h | ⟨r, hr, hz⟩
  · exact Or.inl h
  · exact Or.inr ⟨r, hr, hz, allZeroPw_isCstPw hz⟩

/-- C6 counterexample: a product with two non-constant affine factors whose
translation nevertheless succeeds, because the zero constant between them
collapses the running product to the constant zero before the two
non-constant factors ever meet in `visitMulExpr`'s guard. -/
theorem C6_mul_counterexample :
    2 ≤ nonCstCount [(SCEV.unknown 0, 0), (SCEV.unknown 1, 1)] 2 (fun _ => 0)
        (.cons (.unknown 0) (.cons (.constant 0) (.cons (.unknown 1) .nil))) ∧
    (visit [(SCEV.unknown 0, 0), (SCEV.unknown 1, 1)] 2 (fun _ => 0)
        (.mul (.cons (.unknown 0) (.cons (.constant 0) (.cons (.unknown 1) .nil))))).isSome
      = true := by
  decide

/-- Witness for the amended C6 on the concrete collapsing product. -/
theorem C6_mul_amended_witness :
    lookupParam [(SCEV.unknown 0, 0), (SCEV.unknown 1, 1)]
        (.mul (.cons (.unknown 0) (.cons (.constant 0) (.cons (.unknown 1) .nil)))) = none ∧
    2 ≤ nonCstCount [(SCEV.unknown 0, 0), (SCEV.unknown 1, 1)] 2 (fun _ => 0)
        (.cons (.unknown 0) (.cons (.constant 0) (.cons (.unknown 1) .nil))) ∧
    (visit [(SCEV.unknown 0, 0), (SCEV.unknown 1, 1)] 2 (fun _ => 0)
        (.mul (.cons (.unknown 0) (.cons (.constant 0) (.cons (.unknown 1) .nil)))) = none ∨
     ∃ r, visit [(SCEV.unknown 0, 0), (SCEV.unknown 1, 1)] 2 (fun _ => 0)
        (.mul (.cons (.unknown 0) (.cons (.constant 0) (.cons (.unknown 1) .nil)))) = some r ∧
       allZeroPw r = true ∧ isCstPw r = true) :=
  ⟨by decide, by decide,
   C6_mul_amended [(SCEV.unknown 0, 0), (SCEV.unknown 1, 1)] 2 (fun _ => 0)
     (.cons (.unknown 0) (.cons (.constant 0) (.cons (.unknown 1) .nil)))
     (by decide) (by decide)⟩

/-! ### Global parameter alignment (claim C2) -/

/-- Every registered parameter index is within the table. -/
def TabInv (T : Table) : Prop := ∀ kv ∈ T, kv.2 < T.length

/-- The second table extends the first (tables only grow at the end). -/
def extTab (T T2 : Table) : Prop := ∃ s, T2 = T ++ s

/-- All ids of the list are table dimensions below `k`. -/
def pidsLt (L : List PId) (k : Nat) : Prop :=
  ∀ p ∈ L, ∃ i, i < k ∧ p = PId.table i

theorem pidsLt_nil (k : Nat) : pidsLt [] k := by
  intro p hp
  simp at hp

theorem pidsLt_mono {L : List PId} {k k2 : Nat} (h : pidsLt L k) (hk : k ≤ k2) :
    pidsLt L k2 := by
  intro p hp
  obtain ⟨i, hi, rfl⟩ := h p hp
  exact ⟨i, Nat.lt_of_lt_of_le hi hk, rfl⟩

theorem extTab_refl (T : Table) : extTab T T := ⟨[], by simp⟩

theorem extTab_trans {a b c : Table} : extTab a b → extTab b c → extTab a c
  | ⟨s, hs⟩, ⟨t, ht⟩ => ⟨s ++ t, by rw [ht, hs, List.append_assoc]⟩

theorem extTab_length {a b : Table} (h : extTab a b) : a.length ≤ b.length := by
  obtain ⟨s, rfl⟩ := h
  simp

theorem punion_pidsLt {a b : List PId} {k : Nat} (ha : pidsLt a k) (hb : pidsLt b k) :
    pidsLt (punion a b) k := by
  intro p hp
  rw [punion, List.mem_append] at hp
  rcases hp with h | h
  · exact ha p h
  · exact hb p (List.mem_of_mem_filter h)

theorem lookupParam_mem {T : Table} {e : SCEV} {i : Nat}
    (h : lookupParam T e = some i) : ∃ kv, kv ∈ T ∧ kv.2 = i := by
  rw [lookupParam] at h
  cases hf : T.find? (fun kv => decide (kv.1 = e)) with
  | none => rw [hf] at h; simp at h
  | some kv =>
    rw [hf] at h
    simp only [Option.map_some', Option.some.injEq] at h
    exact ⟨kv, List.mem_of_find?_eq_some hf, h⟩

theorem lookupParam_lt {T : Table} {e : SCEV} {i : Nat} (hInv : TabInv T)
    (h : lookupParam T e = some i) : i < T.length := by
  obtain ⟨kv, hkv, hi⟩ := lookupParam_mem h
  rw [← hi]
  exact hInv kv hkv

theorem find?_append_some {α : Type} {l1 l2 : List α} {p : α → Bool} {a : α}
    (h : l1.find? p = some a) : (l1 ++ l2).find? p = some a := by
  induction l1 with
  | nil => simp at h
  | cons x t ih =>
    rw [List.cons_append]
    rw [List.find?_cons] at h ⊢
    cases hp : p x with
    | true => rw [hp] at h; exact h
    | false => rw [hp] at h; exact ih h

theorem lookupParam_isSome_ext {T T2 : Table} {e : SCEV} (hext : extTab T T2)
    (h : (lookupParam T e).isSome = true) : (lookupParam T2 e).isSome = true := by
  obtain ⟨s, rfl⟩ := hext
  rw [lookupParam] at h ⊢
  cases hf : T.find? (fun kv => decide (kv.1 = e)) with
  | none => rw [hf] at h; simp at h
  | some kv =>
    rw [find?_append_some hf]
    rfl

theorem addParams_ext (ps : List SCEV) : ∀ T, extTab T (addParams T ps) := by
  induction ps with
  | nil =>
    intro T
    exact extTab_refl T
  | cons p t ih =>
    intro T
    rw [addParams, List.foldl_cons]
    have h1 : extTab T (if (lookupParam T p).isSome then T else T ++ [(p, T.length)]) := by
      by_cases hl : (lookupParam T p).isSome = true
      · rw [if_pos hl]; exact extTab_refl T
      · rw [if_neg hl]; exact ⟨[(p, T.length)], rfl⟩
    have h2 := ih (if (lookupParam T p).isSome then T else T ++ [(p, T.length)])
    rw [addParams] at h2
    exact extTab_trans h1 h2

theorem TabInv_append_one {T : Table} (hInv : TabInv T) (p : SCEV) :
    TabInv (T ++ [(p, T.length)]) := by
  intro kv hkv
  rw [List.mem_append] at hkv
  rw [List.length_append, List.length_singleton]
  rcases hkv with h | h
  · exact Nat.lt_succ_of_lt (hInv kv h)
  · simp only [List.mem_singleton] at h
    subst h
    exact Nat.lt_succ_self _

theorem addParams_inv (ps : List SCEV) : ∀ T, TabInv T → TabInv (addParams T ps) := by
  induction ps with
  | nil =>
    intro T h
    exact h
  | cons p t ih =>
    intro T hInv
    rw [addParams, List.foldl_cons]
    have h1 : TabInv (if (lookupParam T p).isSome then T else T ++ [(p, T.length)]) := by
      by_cases hl : (lookupParam T p).isSome = true
      · rw [if_pos hl]; exact hInv
      · rw [if_neg hl]; exact TabInv_append_one hInv p
    have h2 := ih (if (lookupParam T p).isSome then T else T ++ [(p, T.length)]) h1
    rw [addParams] at h2
    exact h2

theorem addParams_lookup (ps : List SCEV) :
    ∀ T, ∀ p ∈ ps, (lookupParam (addParams T ps) p).isSome = true := by
  induction ps with
  | nil =>
    intro T p hp
    simp at hp
  | cons q t ih =>
    intro T p hp
    rw [addParams, List.foldl_cons]
    rcases List.mem_cons.mp hp with rfl | hmem
    · have h1 : (lookupParam (if (lookupParam T p).isSome then T
          else T ++ [(p, T.length)]) p).isSome = true := by
        by_cases hl : (lookupParam T p).isSome = true
        · rw [if_pos hl]; exact hl
        · rw [if_neg hl]
          rw [lookupParam_append_self (Option.not_isSome_iff_eq_none.mp hl) T.length]
          rfl
      have hE := addParams_ext t (if (lookupParam T p).isSome then T
        else T ++ [(p, T.length)])
      rw [addParams] at hE
      exact lookupParam_isSome_ext hE h1
    · have h2 := ih (if (lookupParam T q).isSome then T else T ++ [(q, T.length)]) p hmem
      rw [addParams] at h2
      exact h2

theorem pwMul_params {f g h : PwAff} (hm : pwMul f g = some h) :
    h.params = punion f.params g.params := by
  rw [pwMul] at hm
  cases hs : allSome (f.pieces.flatMap (fun p => g.pieces.map (fun q =>
      (affMul p.aff q.aff).map (fun x => (⟨p.dom ++ q.dom, x⟩ : Piece))))) with
  | none => rw [hs] at hm; exact absurd hm (by simp)
  | some ps =>
    rw [hs] at hm
    simp only [Option.map_some', Option.some.injEq] at hm
    rw [← hm]

theorem paramPwAff_pidsLt {n i k : Nat} (h : i < k) :
    pidsLt (paramPwAff n (.table i)).params k := by
  intro p hp
  have hp2 : p ∈ [PId.table i] := hp
  rw [List.mem_singleton] at hp2
  subst hp2
  exact ⟨i, h, rfl⟩

theorem addStep_params {k : Nat} {a b r : PwAff} (h : addStep a b = some r)
    (ha : pidsLt a.params k) (hb : pidsLt b.params k) : pidsLt r.params k := by
  rw [addStep] at h
  cases h
  exact punion_pidsLt ha hb

theorem mulStep_params {k : Nat} {a b r : PwAff} (h : mulStep a b = some r)
    (ha : pidsLt a.params k) (hb : pidsLt b.params k) : pidsLt r.params k := by
  rw [mulStep] at h
  by_cases hc : (!isCstPw a && !isCstPw b) = true
  · rw [if_pos hc] at h
    exact absurd h (by simp)
  · rw [if_neg hc] at h
    rw [pidsLt, pwMul_params h]
    exact punion_pidsLt ha hb

theorem maxStep_params {k : Nat} {a b r : PwAff} (h : maxStep a b = some r)
    (ha : pidsLt a.params k) (hb : pidsLt b.params k) : pidsLt r.params k := by
  rw [maxStep] at h
  cases h
  exact punion_pidsLt ha hb

theorem foldCombine_params {k : Nat} {step : PwAff → PwAff → Option PwAff}
    (hstep : ∀ a b r, step a b = some r → pidsLt a.params k → pidsLt b.params k →
      pidsLt r.params k) :
    ∀ (vs : List PwAff) (acc r : PwAff), pidsLt acc.params k →
      (∀ v ∈ vs, pidsLt v.params k) →
      foldCombine step acc vs = some r → pidsLt r.params k
  | [], acc, r, hacc, _, h => by
    rw [foldCombine] at h
    cases h
    exact hacc
  | v :: vs, acc, r, hacc, hvs, h => by
    rw [foldCombine] at h
    cases hs : step acc v with
    | none => rw [hs] at h; exact absurd h (by simp)
    | some acc2 =>
      rw [hs] at h
      exact foldCombine_params hstep vs acc2 r
        (hstep acc v acc2 hs hacc (hvs v (by simp)))
        (fun w hw => hvs w (by simp [hw])) h

theorem mergeOps_params {k : Nat} {step : PwAff → PwAff → Option PwAff}
    (hstep : ∀ a b r, step a b = some r → pidsLt a.params k → pidsLt b.params k →
      pidsLt r.params k)
    (vs : List (Option PwAff)) (r : PwAff)
    (hvs : ∀ f, some f ∈ vs → pidsLt f.params k)
    (h : mergeOps step vs = some r) : pidsLt r.params k := by
  rw [mergeOps] at h
  cases hs : allSome vs with
  | none => rw [hs] at h; exact absurd h (by simp)
  | some l =>
    rw [hs] at h
    cases l with
    | nil => exact absurd h (by simp)
    | cons v rest =>
      exact foldCombine_params hstep rest v r
        (hvs v (allSome_mem hs (by simp)))
        (fun w hw => hvs w (allSome_mem hs (by simp [hw]))) h

mutual
theorem visitRaw_params (T : Table) (n : Nat) (ld : Nat → Nat) (hInv : TabInv T) :
    (e : SCEV) → (f : PwAff) → lookupParam T e = none →
      (∀ p ∈ paramsInAffineExpr e, (lookupParam T p).isSome = true) →
      visitRaw T n ld e = some f → pidsLt f.params T.length
  | .constant c, f, _, _, h => by
    rw [visitRaw] at h
    cases h
    exact pidsLt_nil _
  | .add ops, f, _, hreg, h => by
    rw [visitRaw] at h
    exact mergeOps_params (fun a b r hr ha hb => addStep_params hr ha hb) _ f
      (fun g hg => visitL_params T n ld hInv ops g hreg hg) h
  | .mul ops, f, _, hreg, h => by
    rw [visitRaw] at h
    exact mergeOps_params (fun a b r hr ha hb => mulStep_params hr ha hb) _ f
      (fun g hg => visitL_params T n ld hInv ops g hreg hg) h
  | .smax ops, f, _, hreg, h => by
    rw [visitRaw] at h
    exact mergeOps_params (fun a b r hr ha hb => maxStep_params hr ha hb) _ f
      (fun g hg => visitL_params T n ld hInv ops g hreg hg) h
  | .umax _, f, _, _, h => by
    rw [visitRaw] at h
    exact absurd h (by simp)
  | .sext op, f, _, hreg, h => by
    rw [visitRaw] at h
    cases hl : lookupParam T op with
    | some i =>
      rw [hl] at h
      cases h
      exact paramPwAff_pidsLt (lookupParam_lt hInv hl)
    | none =>
      rw [hl] at h
      exact visitRaw_params T n ld hInv op f hl hreg h
  | .zext _, f, _, _, h => by
    rw [visitRaw] at h
    exact absurd h (by simp)
  | .trunc _, f, _, _, h => by
    rw [visitRaw] at h
    exact absurd h (by simp)
  | .udiv _ _, f, _, _, h => by
    rw [visitRaw] at h
    exact absurd h (by simp)
  | .addrec st sp lp, f, _, hreg, h => by
    rw [visitRaw] at h
    have hs : ∀ g, (match lookupParam T st with
        | some i => some (paramPwAff n (.table i))
        | none => visitRaw T n ld st) = some g → pidsLt g.params T.length := by
      intro g hg
      cases hl : lookupParam T st with
      | some i =>
        rw [hl] at hg
        cases hg
        exact paramPwAff_pidsLt (lookupParam_lt hInv hl)
      | none =>
        rw [hl] at hg
        exact visitRaw_params T n ld hInv st g hl
          (fun p hp => hreg p (List.mem_append.mpr (Or.inl hp))) hg
    have hp : ∀ g, (match lookupParam T sp with
        | some i => some (paramPwAff n (.table i))
        | none => visitRaw T n ld sp) = some g → pidsLt g.params T.length := by
      intro g hg
      cases hl : lookupParam T sp with
      | some i =>
        rw [hl] at hg
        cases hg
        exact paramPwAff_pidsLt (lookupParam_lt hInv hl)
      | none =>
        rw [hl] at hg
        exact visitRaw_params T n ld hInv sp g hl
          (fun p hp2 => hreg p (List.mem_append.mpr (Or.inr hp2))) hg
    cases h1 : (match lookupParam T st with
        | some i => some (paramPwAff n (.table i))
        | none => visitRaw T n ld st) with
    | none =>
      rw [h1] at h
      dsimp only at h
      exact absurd h (by simp)
    | some s =>
      cases h2 : (match lookupParam T sp with
          | some i => some (paramPwAff n (.table i))
          | none => visitRaw T n ld sp) with
      | none =>
        rw [h1, h2] at h
        dsimp only at h
        exact absurd h (by simp)
      | some p =>
        rw [h1, h2] at h
        dsimp only at h
        cases h3 : pwMul p (unitPwAff n (ld lp)) with
        | none =>
          rw [h3] at h
          exact absurd h (by simp)
        | some q =>
          rw [h3] at h
          cases h
          have hq : pidsLt q.params T.length := by
            rw [pidsLt, pwMul_params h3]
            exact punion_pidsLt (hp p h2) (pidsLt_nil _)
          exact punion_pidsLt (hs s h1) hq
  | .unknown u, f, hl, hreg, h => by
    have h4 := hreg (.unknown u) (List.mem_singleton.mpr rfl)
    rw [hl] at h4
    simp at h4
theorem visitL_params (T : Table) (n : Nat) (ld : Nat → Nat) (hInv : TabInv T) :
    (l : SCEVList) → (f : PwAff) →
      (∀ p ∈ paramsInL l, (lookupParam T p).isSome = true) →
      some f ∈ visitL T n ld l → pidsLt f.params T.length
  | .nil, f, _, h => by
    rw [visitL] at h
    exact absurd h (by simp)
  | .cons e t, f, hreg, h => by
    rw [visitL] at h
    rcases List.mem_cons.mp h with he | ht
    · cases hl : lookupParam T e with
      | some i =>
        rw [hl] at he
        cases he
        exact paramPwAff_pidsLt (lookupParam_lt hInv hl)
      | none =>
        rw [hl] at he
        exact visitRaw_params T n ld hInv e f hl
          (fun p hp => hreg p (List.mem_append.mpr (Or.inl hp))) he.symm
    · exact visitL_params T n ld hInv t f
        (fun p hp => hreg p (List.mem_append.mpr (Or.inr hp))) ht
end

theorem visit_params {T : Table} {n : Nat} {ld : Nat → Nat} {e : SCEV} {f : PwAff}
    (hInv : TabInv T)
    (hreg : ∀ p ∈ paramsInAffineExpr e, (lookupParam T p).isSome = true)
    (h : visit T n ld e = some f) : pidsLt f.params T.length := by
  rw [visit] at h
  cases hl : lookupParam T e with
  | some i =>
    rw [hl] at h
    cases h
    exact paramPwAff_pidsLt (lookupParam_lt hInv hl)
  | none =>
    rw [hl] at h
    exact visitRaw_params T n ld hInv e f hl hreg h

theorem getPwAff_tab {T : Table} (n : Nat) (ld : Nat → Nat) (e : SCEV) (hInv : TabInv T) :
    TabInv (getPwAff T n ld e).1 ∧ extTab T (getPwAff T n ld e).1 :=
  ⟨addParams_inv (paramsInAffineExpr e) T hInv, addParams_ext (paramsInAffineExpr e) T⟩

theorem getPwAff_params {T : Table} {n : Nat} {ld : Nat → Nat} {e : SCEV} {f : PwAff}
    (hInv : TabInv T) (h : (getPwAff T n ld e).2 = some f) :
    pidsLt f.params (getPwAff T n ld e).1.length :=
  visit_params (addParams_inv (paramsInAffineExpr e) T hInv)
    (addParams_lookup (paramsInAffineExpr e) T) h

theorem buildConditionSet_tab {T : Table} {n : Nat} {ld : Nat → Nat} {c : Cmp}
    (hInv : TabInv T) :
    TabInv (buildConditionSet T n ld c).1 ∧ extTab T (buildConditionSet T n ld c).1 := by
  obtain ⟨h1, e1⟩ := getPwAff_tab n ld c.lhs hInv
  obtain ⟨h2, e2⟩ := getPwAff_tab (T := (getPwAff T n ld c.lhs).1) n ld c.rhs h1
  exact ⟨h2, extTab_trans e1 e2⟩

theorem buildConditionSet_params {T : Table} {n : Nat} {ld : Nat → Nat} {c : Cmp}
    {s : ISet} (hInv : TabInv T)
    (h : (buildConditionSet T n ld c).2 = some s) :
    pidsLt s.params (buildConditionSet T n ld c).1.length := by
  obtain ⟨hI1, hE1⟩ := getPwAff_tab n ld c.lhs hInv
  obtain ⟨hI2, hE2⟩ := getPwAff_tab (T := (getPwAff T n ld c.lhs).1) n ld c.rhs hI1
  rw [buildConditionSet] at h
  show pidsLt s.params (getPwAff (getPwAff T n ld c.lhs).1 n ld c.rhs).1.length
  cases h1 : (getPwAff T n ld c.lhs).2 with
  | none =>
    rw [h1] at h
    exact absurd h (by simp)
  | some L =>
    cases h2 : (getPwAff (getPwAff T n ld c.lhs).1 n ld c.rhs).2 with
    | none =>
      rw [h1, h2] at h
      exact absurd h (by simp)
    | some R =>
      rw [h1, h2] at h
      have hL : pidsLt L.params (getPwAff (getPwAff T n ld c.lhs).1 n ld c.rhs).1.length :=
        pidsLt_mono (getPwAff_params hInv h1) (extTab_length hE2)
      have hR : pidsLt R.params (getPwAff (getPwAff T n ld c.lhs).1 n ld c.rhs).1.length :=
        getPwAff_params hI1 h2
      cases hp : c.pred <;> rw [hp] at h
      case eq => cases h; exact punion_pidsLt hL hR
      case ne => cases h; exact punion_pidsLt hL hR
      case slt => cases h; exact punion_pidsLt hL hR
      case sle => cases h; exact punion_pidsLt hL hR
      case sgt => cases h; exact punion_pidsLt hR hL
      case sge => cases h; exact punion_pidsLt hR hL
      case ult => exact absurd h (by simp)
      case ule => exact absurd h (by simp)
      case ugt => exact absurd h (by simp)
      case uge => exact absurd h (by simp)

theorem inter_params (s t : ISet) : (s.inter t).params = punion s.params t.params := rfl

theorem addConditionsToDomain_params {n : Nat} {ld : Nat → Nat} :
    ∀ (cs : List Cmp) (T : Table) (dom : ISet) (T2 : Table) (d2 : ISet),
      addConditionsToDomain n ld cs T dom = (T2, some d2) →
      TabInv T → pidsLt dom.params T.length →
      TabInv T2 ∧ extTab T T2 ∧ pidsLt d2.params T2.length
  | [], T, dom, T2, d2, h, hInv, hdom => by
    rw [addConditionsToDomain] at h
    cases h
    exact ⟨hInv, extTab_refl T, hdom⟩
  | c :: cs, T, dom, T2, d2, h, hInv, hdom => by
    rw [addConditionsToDomain] at h
    cases hb : buildConditionSet T n ld c with
    | mk T1 os =>
      cases os with
      | none =>
        rw [hb] at h
        dsimp only at h
        simp at h
      | some s =>
        rw [hb] at h
        dsimp only at h
        have hb1 : (buildConditionSet T n ld c).1 = T1 := congrArg Prod.fst hb
        have hb2 : (buildConditionSet T n ld c).2 = some s := congrArg Prod.snd hb
        obtain ⟨hIb, hEb⟩ := @buildConditionSet_tab T n ld c hInv
        rw [hb1] at hIb hEb
        have hsp : pidsLt s.params T1.length := by
          have h5 := buildConditionSet_params hInv hb2
          rw [hb1] at h5
          exact h5
        have hdom1 : pidsLt (dom.inter s).params T1.length := by
          rw [pidsLt, inter_params]
          exact punion_pidsLt (pidsLt_mono hdom (extTab_length hEb)) hsp
        obtain ⟨hI2, hE2, hd⟩ :=
          addConditionsToDomain_params cs T1 (dom.inter s) T2 d2 h hIb hdom1
        exact ⟨hI2, extTab_trans hEb hE2, hd⟩

theorem pwLeSet_params (f g : PwAff) : (pwLeSet f g).params = punion f.params g.params := rfl

theorem pwNonnegSet_params (f : PwAff) : (pwNonnegSet f).params = f.params := rfl

theorem unitPwAff_params (n i : Nat) : (unitPwAff n i).params = [] := rfl

theorem addLoopBoundsAux_params {n : Nat} {ld : Nat → Nat} {bounds : List SCEV} :
    ∀ (is : List Nat) (T : Table) (dom : ISet) (T2 : Table) (d2 : ISet),
      addLoopBoundsAux n ld bounds is T dom = (T2, some d2) →
      TabInv T → pidsLt dom.params T.length →
      TabInv T2 ∧ extTab T T2 ∧ pidsLt d2.params T2.length
  | [], T, dom, T2, d2, h, hInv, hdom => by
    rw [addLoopBoundsAux] at h
    cases h
    exact ⟨hInv, extTab_refl T, hdom⟩
  | i :: is, T, dom, T2, d2, h, hInv, hdom => by
    rw [addLoopBoundsAux] at h
    cases hg : getPwAff T n ld (bounds.getD i (.constant 0)) with
    | mk T1 ofb =>
      cases ofb with
      | none =>
        rw [hg] at h
        dsimp only at h
        simp at h
      | some ub =>
        rw [hg] at h
        dsimp only at h
        have hg1 : (getPwAff T n ld (bounds.getD i (.constant 0))).1 = T1 :=
          congrArg Prod.fst hg
        have hg2 : (getPwAff T n ld (bounds.getD i (.constant 0))).2 = some ub :=
          congrArg Prod.snd hg
        obtain ⟨hI1, hE1⟩ := getPwAff_tab n ld (bounds.getD i (.constant 0)) hInv
        rw [hg1] at hI1 hE1
        have hub : pidsLt ub.params T1.length := by
          have h5 := getPwAff_params hInv hg2
          rw [hg1] at h5
          exact h5
        have hdom1 : pidsLt ((dom.inter (pwNonnegSet (unitPwAff n i))).inter
            (pwLeSet (unitPwAff n i) ub)).params T1.length := by
          rw [pidsLt, inter_params, inter_params, pwNonnegSet_params, pwLeSet_params,
            unitPwAff_params]
          exact punion_pidsLt
            (punion_pidsLt (pidsLt_mono hdom (extTab_length hE1)) (pidsLt_nil _))
            (punion_pidsLt (pidsLt_nil _) hub)
        obtain ⟨hI2, hE2, hd⟩ := addLoopBoundsAux_params is T1
          ((dom.inter (pwNonnegSet (unitPwAff n i))).inter (pwLeSet (unitPwAff n i) ub))
          T2 d2 h hI1 hdom1
        exact ⟨hI2, extTab_trans hE1 hE2, hd⟩

theorem buildDomain_params {T : Table} {n : Nat} {ld : Nat → Nat} {bounds : List SCEV}
    {conds : List Cmp} {T2 : Table} {d : ISet} (hInv : TabInv T)
    (h : buildDomain T n ld bounds conds = (T2, some d)) :
    TabInv T2 ∧ extTab T T2 ∧ pidsLt d.params T2.length := by
  rw [buildDomain] at h
  cases hA : addLoopBoundsToDomain T n ld bounds (setUniverse [] n) with
  | mk T1 od =>
    cases od with
    | none =>
      rw [hA] at h
      dsimp only at h
      simp at h
    | some dom =>
      rw [hA] at h
      dsimp only at h
      obtain ⟨hI1, hE1, hdom⟩ := addLoopBoundsAux_params (List.range n) T
        (setUniverse [] n) T1 dom hA hInv (pidsLt_nil _)
      obtain ⟨hI2, hE2, hd⟩ := addConditionsToDomain_params conds T1 dom T2 d h hI1 hdom
      exact ⟨hI2, extTab_trans hE1 hE2, hd⟩

theorem foldl_params_eq {g : IMap → Nat → IMap} (hg : ∀ m i, (g m i).params = m.params) :
    ∀ (l : List Nat) (m : IMap), (l.foldl g m).params = m.params
  | [], m => rfl
  | i :: t, m => by
    rw [List.foldl_cons, foldl_params_eq hg t (g m i), hg]

theorem buildScattering_params (mld : Nat) (cp : List PId) (sc : List Int) (nb : Nat) :
    (buildScattering mld cp sc nb).params = cp := by
  have h3 : ((List.range' (2 * nb + 1) (2 * mld + 1 - (2 * nb + 1))).foldl
      (fun m i => mapFixOut m i 0)
      ((List.range (nb + 1)).foldl (fun m i => mapFixOut m (2 * i) (sc.getD i 0))
        ((List.range nb).foldl (fun m i => mapEquate m (2 * i + 1) i)
          (mapUniverse [] nb (2 * mld + 1))))).params = [] := by
    rw [foldl_params_eq (g := fun m i => mapFixOut m i 0) (fun m i => rfl),
        foldl_params_eq (g := fun m i => mapFixOut m (2 * i) (sc.getD i 0)) (fun m i => rfl),
        foldl_params_eq (g := fun m i => mapEquate m (2 * i + 1) i) (fun m i => rfl)]
    rfl
  have h5 : (buildScattering mld cp sc nb).params
      = punion cp ((List.range' (2 * nb + 1) (2 * mld + 1 - (2 * nb + 1))).foldl
        (fun m i => mapFixOut m i 0)
        ((List.range (nb + 1)).foldl (fun m i => mapFixOut m (2 * i) (sc.getD i 0))
          ((List.range nb).foldl (fun m i => mapEquate m (2 * i + 1) i)
            (mapUniverse [] nb (2 * mld + 1))))).params := rfl
  rw [h5, h3]
  simp [punion]

theorem mkMemoryAccess_params {T : Table} {nbIter : Nat} {ld : Nat → Nat} {acc : IRAccess}
    {T2 : Table} {m : MemAcc} (hInv : TabInv T)
    (h : mkMemoryAccess T nbIter ld acc = (T2, some m)) :
    TabInv T2 ∧ extTab T T2 ∧ pidsLt m.rel.params T2.length := by
  obtain ⟨isR, bId, off, esz, isAff⟩ := acc
  cases isAff with
  | false =>
    have hT : T = T2 := congrArg Prod.fst h
    have hm : (some ⟨if (if isR then AccType.read else AccType.write) = AccType.read
        then AccType.read else AccType.mayWrite, bId, createBasicAccessMap nbIter⟩
        : Option MemAcc) = some m := congrArg Prod.snd h
    simp only [Option.some.injEq] at hm
    subst hT
    rw [← hm]
    exact ⟨hInv, extTab_refl T, pidsLt_nil _⟩
  | true =>
    have h2 : (match (getPwAff T nbIter ld off).2 with
        | none => ((getPwAff T nbIter ld off).1, (none : Option MemAcc))
        | some f => ((getPwAff T nbIter ld off).1,
            some ⟨if isR then .read else .write, bId,
                  mapFromPwAff (pwScaleDown f esz)⟩)) = (T2, some m) := h
    obtain ⟨hI1, hE1⟩ := getPwAff_tab (T := T) nbIter ld off hInv
    cases ho : (getPwAff T nbIter ld off).2 with
    | none =>
      rw [ho] at h2
      dsimp only at h2
      have h5 := congrArg Prod.snd h2
      simp at h5
    | some f =>
      rw [ho] at h2
      dsimp only at h2
      have hT : (getPwAff T nbIter ld off).1 = T2 := congrArg Prod.fst h2
      have hm : (some ⟨if isR then AccType.read else AccType.write, bId,
          mapFromPwAff (pwScaleDown f esz)⟩ : Option MemAcc) = some m :=
        congrArg Prod.snd h2
      simp only [Option.some.injEq] at hm
      rw [hT] at hI1 hE1
      have hf : pidsLt f.params T2.length := by
        have h6 := getPwAff_params hInv ho
        rw [hT] at h6
        exact h6
      rw [← hm]
      exact ⟨hI1, hE1, hf⟩

theorem buildAccesses_params {nbIter : Nat} {ld : Nat → Nat} :
    ∀ (as : List IRAccess) (T T2 : Table) (ms : List MemAcc),
      buildAccesses nbIter ld as T = (T2, some ms) → TabInv T →
      TabInv T2 ∧ extTab T T2 ∧ ∀ m ∈ ms, pidsLt m.rel.params T2.length
  | [], T, T2, ms, h, hInv => by
    rw [buildAccesses] at h
    cases h
    exact ⟨hInv, extTab_refl T, by intro m hm; simp at hm⟩
  | a :: as, T, T2, ms, h, hInv => by
    rw [buildAccesses] at h
    cases hM : mkMemoryAccess T nbIter ld a with
    | mk T1 om =>
      cases om with
      | none =>
        rw [hM] at h
        dsimp only at h
        simp at h
      | some m =>
        rw [hM] at h
        dsimp only at h
        obtain ⟨hI1, hE1, hm⟩ := mkMemoryAccess_params hInv hM
        cases hR : buildAccesses nbIter ld as T1 with
        | mk T3 oms =>
          cases oms with
          | none =>
            rw [hR] at h
            dsimp only at h
            simp at h
          | some ms2 =>
            rw [hR] at h
            dsimp only at h
            obtain ⟨hI3, hE3, hms⟩ := buildAccesses_params as T1 T3 ms2 hR hI1
            have hT : T3 = T2 := congrArg Prod.fst h
            have hls : some (m :: ms2) = some ms := congrArg Prod.snd h
            simp only [Option.some.injEq] at hls
            subst hT
            rw [← hls]
            refine ⟨hI3, extTab_trans hE1 hE3, ?_⟩
            intro x hx
            rcases List.mem_cons.mp hx with rfl | hx2
            · exact pidsLt_mono hm (extTab_length hE3)
            · exact hms x hx2

theorem buildStmt_params {mld : Nat} {T : Table} {f : StmtFacts} {T2 : Table}
    {st : StmtModel} (hInv : TabInv T)
    (h : buildStmt mld [] T f = (T2, some st)) :
    TabInv T2 ∧ extTab T T2 ∧ pidsLt st.domain.params T2.length ∧
      st.scattering.params = [] ∧
      ∀ a ∈ st.accesses, pidsLt a.rel.params T2.length := by
  rw [buildStmt] at h
  cases hD : buildDomain T f.nestLoops.length (fun lp => f.nestLoops.indexOf lp)
      f.bounds f.conds with
  | mk T1 od =>
    cases od with
    | none =>
      rw [hD] at h
      dsimp only at h
      simp at h
    | some dom =>
      rw [hD] at h
      dsimp only at h
      obtain ⟨hI1, hE1, hdom⟩ := buildDomain_params hInv hD
      cases hA : buildAccesses f.nestLoops.length (fun lp => f.nestLoops.indexOf lp)
          f.accesses T1 with
      | mk T3 oa =>
        cases oa with
        | none =>
          rw [hA] at h
          dsimp only at h
          simp at h
        | some accs =>
          rw [hA] at h
          dsimp only at h
          obtain ⟨hI3, hE3, haccs⟩ := buildAccesses_params f.accesses T1 T3 accs hA hI1
          have hT : T3 = T2 := congrArg Prod.fst h
          have hst : (some ⟨dom, buildScattering mld [] f.scatter f.nestLoops.length,
              accs⟩ : Option StmtModel) = some st := congrArg Prod.snd h
          simp only [Option.some.injEq] at hst
          subst hT
          rw [← hst]
          refine ⟨hI3, extTab_trans hE1 hE3, ?_, ?_, ?_⟩
          · exact pidsLt_mono hdom (extTab_length hE3)
          · exact buildScattering_params mld [] f.scatter f.nestLoops.length
          · exact haccs

theorem buildStmts_params {mld : Nat} :
    ∀ (fs : List StmtFacts) (T T3 : Table) (sts : List StmtModel),
      buildStmts mld [] fs T = some (T3, sts) → TabInv T →
      TabInv T3 ∧ extTab T T3 ∧
        ∀ st ∈ sts, pidsLt st.domain.params T3.length ∧
          st.scattering.params = [] ∧
          ∀ a ∈ st.accesses, pidsLt a.rel.params T3.length
  | [], T, T3, sts, h, hInv => by
    rw [buildStmts] at h
    simp only [Option.some.injEq] at h
    have hT : T = T3 := congrArg Prod.fst h
    have hs : ([] : List StmtModel) = sts := congrArg Prod.snd h
    subst hT
    rw [← hs]
    exact ⟨hInv, extTab_refl _, by intro st hst; simp at hst⟩
  | f :: fs, T, T3, sts, h, hInv => by
    rw [buildStmts] at h
    cases hS : buildStmt mld [] T f with
    | mk T1 ost =>
      cases ost with
      | none =>
        rw [hS] at h
        dsimp only at h
        simp at h
      | some st =>
        rw [hS] at h
        dsimp only at h
        obtain ⟨hI1, hE1, hdom, hsc, hacc⟩ := buildStmt_params hInv hS
        cases hR : buildStmts mld [] fs T1 with
        | none =>
          rw [hR] at h
          simp at h
        | some p =>
          cases p with
          | mk T4 sts2 =>
            rw [hR] at h
            dsimp only at h
            simp only [Option.some.injEq] at h
            obtain ⟨hI4, hE4, hsts⟩ := buildStmts_params fs T1 T4 sts2 hR hI1
            have hT : T4 = T3 := congrArg Prod.fst h
            have hs : st :: sts2 = sts := congrArg Prod.snd h
            subst hT
            rw [← hs]
            refine ⟨hI4, extTab_trans hE1 hE4, ?_⟩
            intro x hx
            rcases List.mem_cons.mp hx with rfl | hx2
            · exact ⟨pidsLt_mono hdom (extTab_length hE4), hsc,
                fun a ha => pidsLt_mono (hacc a ha) (extTab_length hE4)⟩
            · exact hsts x hx2

theorem filter_nil_of_none {α : Type} {l : List α} {p : α → Bool}
    (h : ∀ a ∈ l, p a = false) : l.filter p = [] := by
  induction l with
  | nil => rfl
  | cons a t ih =>
    rw [List.filter_cons, h a (by simp), if_neg (by simp)]
    exact ih (fun b hb => h b (by simp [hb]))

theorem punion_absorb {sp l : List PId} (h : ∀ p ∈ l, p ∈ sp) : punion sp l = sp := by
  rw [punion]
  rw [filter_nil_of_none (fun p hp => by simp [h p hp]), List.append_nil]

theorem pidsLt_mem_space {L : List PId} {T : Table} (h : pidsLt L T.length) :
    ∀ p ∈ L, p ∈ paramSpaceOf T := by
  intro p hp
  obtain ⟨i, hi, rfl⟩ := h p hp
  rw [paramSpaceOf]
  exact List.mem_map_of_mem _ (List.mem_range.mpr hi)

/-- C2: after the complete build of a program model — the `Scop` constructor
ending in `realignParams` — the context set, every statement domain, every
scattering relation and every access relation carry the identical global
parameter space: the table dimensions `0, …, |T|−1` in table order. -/
theorem C2_parameter_alignment (mld : Nat) (facts : List StmtFacts) (S : ScopM)
    (h : buildScop mld facts = some S) :
    S.context.params = paramSpaceOf S.tab ∧
    ∀ st ∈ S.stmts,
      st.domain.params = paramSpaceOf S.tab ∧
      st.scattering.params = paramSpaceOf S.tab ∧
      ∀ a ∈ st.accesses, a.rel.params = paramSpaceOf S.tab := by
  have h2 : (match buildStmts mld [] facts [] with
      | none => none
      | some (T, sts) => some (ScopM.realignParams ⟨T, setUniverse [] 0, sts⟩)) = some S := h
  cases hb : buildStmts mld [] facts [] with
  | none =>
    rw [hb] at h2
    simp at h2
  | some p =>
    cases p with
    | mk T sts =>
      rw [hb] at h2
      dsimp only at h2
      simp only [Option.some.injEq] at h2
      obtain ⟨hI, _, hsts⟩ := buildStmts_params facts [] T sts hb
        (by intro kv hkv; simp at hkv)
      subst h2
      have hctxp : ((setUniverse [] 0).alignParams (paramSpaceOf T)).params
          = paramSpaceOf T := by
        show punion (paramSpaceOf T) [] = paramSpaceOf T
        exact punion_absorb (by intro p hp; simp at hp)
      constructor
      · show ((setUniverse [] 0).alignParams (paramSpaceOf T)).params = paramSpaceOf T
        exact hctxp
      · intro st hst
        have hmem : st ∈ sts.map (StmtModel.realign
            (((setUniverse [] 0).alignParams (paramSpaceOf T)).params)) := hst
        rw [List.mem_map] at hmem
        obtain ⟨st0, hst0, rfl⟩ := hmem
        obtain ⟨hdom, hsc, hacc⟩ := hsts st0 hst0
        rw [hctxp]
        refine ⟨?_, ?_, ?_⟩
        · show punion (paramSpaceOf T) st0.domain.params
            = paramSpaceOf (ScopM.realignParams ⟨T, setUniverse [] 0, sts⟩).tab
          exact punion_absorb (pidsLt_mem_space hdom)
        · show punion (paramSpaceOf T) st0.scattering.params
            = paramSpaceOf (ScopM.realignParams ⟨T, setUniverse [] 0, sts⟩).tab
          rw [hsc]
          exact punion_absorb (by intro p hp; simp at hp)
        · intro a ha
          have ha2 : a ∈ st0.accesses.map
              (fun a0 => { a0 with rel := a0.rel.alignParams (paramSpaceOf T) }) := ha
          rw [List.mem_map] at ha2
          obtain ⟨a0, ha0, rfl⟩ := ha2
          show punion (paramSpaceOf T) a0.rel.params
            = paramSpaceOf (ScopM.realignParams ⟨T, setUniverse [] 0, sts⟩).tab
          exact punion_absorb (pidsLt_mem_space (hacc a0 ha0))

/-- Witness for C2: a one-loop, one-statement region with one affine read of
an opaque value; the build succeeds and all spaces coincide. -/
theorem C2_parameter_alignment_witness :
    ∃ S, buildScop 1 [⟨[7], [0, 0], [.constant 9], [],
        [⟨true, 3, .unknown 5, 4, true⟩]⟩] = some S ∧
      (S.context.params = paramSpaceOf S.tab ∧
        ∀ st ∈ S.stmts,
          st.domain.params = paramSpaceOf S.tab ∧
          st.scattering.params = paramSpaceOf S.tab ∧
          ∀ a ∈ st.accesses, a.rel.params = paramSpaceOf S.tab) := by
  have hs : (buildScop 1 [⟨[7], [0, 0], [.constant 9], [],
      [⟨true, 3, .unknown 5, 4, true⟩]⟩]).isSome = true := rfl
  obtain ⟨S, hS⟩ := Option.isSome_iff_exists.mp hs
  exact ⟨S, hS, C2_parameter_alignment 1 _ S hS⟩

end ScopModel
